import Mathlib

/-!
# Verification of the ctrlpad rendering core

A shallow embedding of `ctrlpad/renderer.py` (texture-atlas packer, quad
batcher, MSDF font tables, text layout) and `ctrlpad/color.py` (color
parsing), together with proofs and refutations of the specification claims.

Conventions of the embedding:
* Python `float` arithmetic is modelled with exact rationals (`ℚ`); the
  verified claims concern control flow, counting and geometry, not rounding.
* Python `int` pixel coordinates are `ℕ` (they are provably non-negative);
  intermediate arithmetic that can go negative in Python (the waste score of
  the packer) is done in `ℤ` with Python's floor division.
* Python exceptions are modelled with `Except PyErr`; the distinct error
  constructors mirror the distinct Python exception classes.
* Python strings used as *text* are lists of code points (`List ℕ`, via
  `ord`); strings used as *color codes* are lists of `Char`.
* `str.isalnum` / `str.strip` / `int(s, 16)` are modelled on the ASCII
  fragment (all inputs appearing in the repository are ASCII).
-/

/-! ## Python-semantics utilities -/

/-- Python exceptions raised by the embedded code.  `typeError` is the
`TypeError` from hashing an unhashable cache key, `emptyMax` is the
`ValueError` raised by `max()` on an empty sequence, `atlasFull` is
`AtlasFullError` (renderer.py line 65). -/
inductive PyErr where
  | typeError
  | emptyMax
  | atlasFull
deriving DecidableEq, Repr

/-- Decidable equality for `Except`, for evaluating the embedding in
counterexamples and witnesses. -/
def exceptDecEq {ε α : Type} [DecidableEq ε] [DecidableEq α] :
    DecidableEq (Except ε α)
  | .error e, .error f =>
    if h : e = f then .isTrue (by rw [h])
    else .isFalse (by intro hh; cases hh; exact h rfl)
  | .error _, .ok _ => .isFalse (by intro h; cases h)
  | .ok _, .error _ => .isFalse (by intro h; cases h)
  | .ok a, .ok b =>
    if h : a = b then .isTrue (by rw [h])
    else .isFalse (by intro hh; cases hh; exact h rfl)

instance {ε α : Type} [DecidableEq ε] [DecidableEq α] : DecidableEq (Except ε α) :=
  exceptDecEq

/-- ASCII model of Python `str.isalnum` on a code point. -/
def pyAlnum (cp : ℕ) : Bool :=
  decide ((48 ≤ cp ∧ cp ≤ 57) ∨ (65 ≤ cp ∧ cp ≤ 90) ∨ (97 ≤ cp ∧ cp ≤ 122))

/-- ASCII model of Python whitespace (space and `\t\n\v\f\r`). -/
def pyWS (cp : ℕ) : Bool := decide (cp = 32 ∨ (9 ≤ cp ∧ cp ≤ 13))

/-- Python `str.strip()` on a list of code points. -/
def pyStrip (l : List ℕ) : List ℕ :=
  ((l.dropWhile pyWS).reverse.dropWhile pyWS).reverse

/-- Python slice `l[s:e]` with a non-negative start and a possibly negative
stop (a negative stop counts from the end, clamped at 0). -/
def pySlice (l : List ℕ) (s : ℕ) (e : ℤ) : List ℕ :=
  let stop : ℕ := if e < 0 then ((l.length : ℤ) + e).toNat else e.toNat
  (l.take stop).drop s

/-- Python `max` over a list (`ValueError`, i.e. `none`, on the empty list). -/
def pyMax? (l : List ℕ) : Option ℕ :=
  match l with
  | [] => none
  | x :: xs => some (xs.foldl max x)

/-! ## `color.py`: `parse` (lines 12-38)

The source first short-circuits 4- and 3-element tuples/lists, then looks the
argument up in a module-level cache (`_importcache[c]`), which raises
`TypeError` for an unhashable argument such as a list of any other length.
Strings are hex-decoded with Python `int(·, 16)`; any failure yields the
error color `(1.0, 0.0, 1.0, 1.0)`.  The cache is semantically transparent
for hashable arguments, so it is not modelled beyond the `TypeError`. -/

/-- The argument of `color.parse`: a tuple, a list, or a string (a string is
its list of code points). -/
inductive ColorArg where
  | tup : List ℚ → ColorArg
  | lst : List ℚ → ColorArg
  | str : List ℕ → ColorArg
deriving DecidableEq

/-- The error color returned by `color.parse` for invalid input. -/
def errColor : List ℚ := [1, 0, 1, 1]

/-- Value of an ASCII hex digit code point (`0-9a-fA-F`). -/
def hexDigitVal? (c : ℕ) : Option ℕ :=
  if 48 ≤ c ∧ c ≤ 57 then some (c - 48)
  else if 97 ≤ c ∧ c ≤ 102 then some (c - 87)
  else if 65 ≤ c ∧ c ≤ 70 then some (c - 55)
  else none

/-- Digits of a base-16 Python int literal after the first digit: single
underscores are allowed between digits only. -/
def hexDigitsAux : List ℕ → ℕ → Option ℕ
  | [], acc => some acc
  | c :: rest, acc =>
    if c = 95 then  -- underscore
      match rest with
      | [] => none
      | c2 :: rest2 =>
        match hexDigitVal? c2 with
        | some d => hexDigitsAux rest2 (acc * 16 + d)
        | none => none
    else
      match hexDigitVal? c with
      | some d => hexDigitsAux rest (acc * 16 + d)
      | none => none

/-- Digit run of a base-16 Python int literal (non-empty). -/
def hexDigits? : List ℕ → Option ℕ
  | [] => none
  | c :: rest =>
    match hexDigitVal? c with
    | some d => hexDigitsAux rest d
    | none => none

/-- ASCII model of Python `int(s, 16)`: optional surrounding whitespace,
optional sign, optional `0x`/`0X` base marker (optionally followed by one
underscore), then hex digits with single underscores between digits.
`none` models the `ValueError` of an invalid literal. -/
def pyIntHex? (cs0 : List ℕ) : Option ℤ :=
  let cs1 := pyStrip cs0
  let sc : ℤ × List ℕ :=
    match cs1 with
    | c :: rest =>
      if c = 43 then (1, rest)          -- plus sign
      else if c = 45 then (-1, rest)    -- minus sign
      else (1, cs1)
    | [] => (1, cs1)
  let cs2 :=
    match sc.2 with
    | c0 :: x :: rest =>
      if c0 = 48 ∧ (x = 120 ∨ x = 88) then  -- `0x` / `0X`
        match rest with
        | c2 :: r2 => if c2 = 95 then r2 else rest
        | [] => rest
      else c0 :: x :: rest
    | l => l
  (hexDigits? cs2).map (fun n => sc.1 * (n : ℤ))

/-- The string branch of `color.parse` (lines 24-33): strip a leading `#`,
then decode by length (3/4 nibble forms over 15, 6/8 byte forms over 255).
`none` models the caught `ValueError` leading to the error color. -/
def hexColorBody? (cs : List ℕ) : Option (List ℚ) :=
  if cs.length = 3 then
    match cs with
    | [a, b, c] =>
      match pyIntHex? [a], pyIntHex? [b], pyIntHex? [c] with
      | some ra, some rb, some rc =>
        some [(ra : ℚ) / 15, (rb : ℚ) / 15, (rc : ℚ) / 15, 1]
      | _, _, _ => none
    | _ => none
  else if cs.length = 4 then
    match cs with
    | [a, b, c, d] =>
      match pyIntHex? [a], pyIntHex? [b], pyIntHex? [c], pyIntHex? [d] with
      | some ra, some rb, some rc, some rd =>
        some [(ra : ℚ) / 15, (rb : ℚ) / 15, (rc : ℚ) / 15, (rd : ℚ) / 15]
      | _, _, _, _ => none
    | _ => none
  else if cs.length = 6 then
    match pyIntHex? (cs.take 2), pyIntHex? ((cs.drop 2).take 2),
          pyIntHex? ((cs.drop 4).take 2) with
    | some r, some g, some b =>
      some [(r : ℚ) / 255, (g : ℚ) / 255, (b : ℚ) / 255, 1]
    | _, _, _ => none
  else if cs.length = 8 then
    match pyIntHex? (cs.take 2), pyIntHex? ((cs.drop 2).take 2),
          pyIntHex? ((cs.drop 4).take 2), pyIntHex? ((cs.drop 6).take 2) with
    | some r, some g, some b, some a =>
      some [(r : ℚ) / 255, (g : ℚ) / 255, (b : ℚ) / 255, (a : ℚ) / 255]
    | _, _, _, _ => none
  else none

def hexColor? (cs0 : List ℕ) : Option (List ℚ) :=
  hexColorBody? (match cs0 with
    | c :: rest => if c = 35 then rest else cs0  -- leading `#`
    | [] => cs0)

/-- `color.parse` (color.py lines 14-38).  Colors are the returned Python
tuple/list as a list of rationals (always of length 4 except for 4-element
tuple/list inputs, which are returned verbatim). -/
def colorParse : ColorArg → Except PyErr (List ℚ)
  | .tup l =>
    if l.length = 4 then .ok l
    else if l.length = 3 then .ok (l ++ [1])
    else .ok errColor
  | .lst l =>
    if l.length = 4 then .ok l
    else if l.length = 3 then .ok (l ++ [1])
    else .error .typeError
  | .str cs => .ok ((hexColor? cs).getD errColor)

/-! ## `MSDFFont` glyph tables (renderer.py lines 192-260) -/

/-- One glyph record: `(advance, has_image_flag, x0,y0,x1,y1, u0,v0,u1,v1)`
(renderer.py line 216). -/
structure Glyph where
  adv : ℚ
  valid : Bool
  px0 : ℚ
  py0 : ℚ
  px1 : ℚ
  py1 : ℚ
  tx0 : ℚ
  ty0 : ℚ
  tx1 : ℚ
  ty1 : ℚ
deriving DecidableEq, Repr

/-- `MSDFFont._nullglyph` (renderer.py line 193): advance `0.5`, no image. -/
def msdfNullGlyph : Glyph := ⟨0.5, false, 0, 0, 0, 0, 0, 0, 0, 0⟩

/-- Fallback-glyph selection (renderer.py lines 232-236): first of U+FFFD,
`'?'` (63), space (32) present in the glyph table, else `_nullglyph`. -/
def chooseFallback (glyphs : List (ℕ × Glyph)) : Glyph :=
  match glyphs.lookup 0xFFFD with
  | some g => g
  | none =>
    match glyphs.lookup 63 with
    | some g => g
    | none =>
      match glyphs.lookup 32 with
      | some g => g
      | none => msdfNullGlyph

/-- The font data used by the renderer: glyph and kerning tables, line
metrics, and the placement of its page in the shared atlas (texture handle
and atlas pixel size, used by `set_texture`). -/
structure Font where
  glyphs : List (ℕ × Glyph)
  kern : List ((ℕ × ℕ) × ℚ)
  fallback : Glyph
  lineHeight : ℚ
  maxHeight : ℚ
  baseline : ℚ
  atlasTex : ℕ
  atlasW : ℚ
  atlasH : ℚ
deriving DecidableEq

/-- Accumulator loop of `MSDFFont.width` (renderer.py lines 244-250). -/
def widthAux (f : Font) : List ℕ → ℕ → ℚ → ℚ
  | [], _, x => x
  | cp :: rest, prev, x =>
    widthAux f rest cp
      (x + ((f.kern.lookup (prev, cp)).getD 0) + ((f.glyphs.lookup cp).getD f.fallback).adv)

/-- `MSDFFont.width(text, size)`: kerned advance sum scaled by `size`. -/
def Font.width (f : Font) (text : List ℕ) (size : ℚ) : ℚ :=
  widthAux f text 0 0 * size

/-- `NullFont` (renderer.py lines 252-260): zero metrics, empty tables,
`MSDFFont._nullglyph` as fallback; it still references the shared atlas. -/
def nullFont (atlasTex : ℕ) (atlasW atlasH : ℚ) : Font :=
  { glyphs := [], kern := [], fallback := msdfNullGlyph,
    lineHeight := 0, maxHeight := 0, baseline := 0,
    atlasTex := atlasTex, atlasW := atlasW, atlasH := atlasH }

/-! ## `Renderer` quad batching (renderer.py lines 265-341, 368-450)

The GPU-facing state that the claims speak about: the buffered vertex floats
(`self.data`), the bound texture, the per-frame quad/batch counters.
`nbatches` counts exactly the `gl.DrawElements` calls of the frame (one per
non-empty `flush`). -/

def vertexAttribCount : ℕ := 14
def vertexSize : ℕ := vertexAttribCount * 4
/-- `batch_size = 65536 // (vertex_size * 4)` = 292 quads per draw call. -/
def batchSize : ℕ := 65536 / (vertexSize * 4)
def vboItemsPerQuad : ℕ := vertexAttribCount * 4
def maxVboItems : ℕ := batchSize * vboItemsPerQuad

structure RState where
  data : List ℚ
  tex : ℕ
  texW : ℚ
  texH : ℚ
  font : Font
  nquads : ℕ
  nbatches : ℕ
deriving DecidableEq

/-- `Renderer.flush` (lines 317-331): on non-empty data, account the quads,
issue one draw call (`nbatches + 1`) and clear the buffer. -/
def flushR (s : RState) : RState :=
  if s.data.length = 0 then s
  else { s with
    nquads := s.nquads + s.data.length / vboItemsPerQuad,
    nbatches := s.nbatches + 1,
    data := [] }

/-- `Renderer.set_texture` (lines 333-341): no-op on the current texture,
otherwise flush first, then rebind and update the size uniform. -/
def setTexture (s : RState) (tex : ℕ) (w h : ℚ) : RState :=
  if tex = s.tex then s
  else
    let s' := flushR s
    { s' with tex := tex, texW := w, texH := h }

/-- `Renderer.begin_frame` (lines 301-307): reset buffer and counters. -/
def beginFrame (s : RState) : RState :=
  { s with data := [], nquads := 0, nbatches := 0 }

/-- `Renderer.end_frame` (lines 309-315): flush the remaining quads (the
`max_nquads`/`max_nbatches` logging bookkeeping is not modelled). -/
def endFrameR (s : RState) : RState := flushR s

/-- `Renderer.box` (lines 368-392): parse the colors, flush if the buffer is
at capacity, then append one quad of 4x14 floats (the color components are
spliced in exactly as Python's `*colorU` splat does). -/
def boxR (s : RState) (x0 y0 x1 y1 : ℚ) (colorU : ColorArg) (colorL : Option ColorArg)
    (radius blur offset : ℚ) : Except PyErr RState := do
  let cU ← colorParse colorU
  let cL ← match colorL with
    | none => pure cU
    | some c => colorParse c
  let s := if maxVboItems ≤ s.data.length then flushR s else s
  let w := (x1 - x0) * 0.5
  let h := (y1 - y0) * 0.5
  let r := min (min w h) radius
  let sf := 1.0 / max blur (1.0 / 256)
  .ok { s with data := s.data ++
    ([x0, y0, -w, -h, 0, w, h, r, offset, sf] ++ cU ++
     [x1, y0,  w, -h, 0, w, h, r, offset, sf] ++ cU ++
     [x0, y1, -w,  h, 0, w, h, r, offset, sf] ++ cL ++
     [x1, y1,  w,  h, 0, w, h, r, offset, sf] ++ cL) }

/-- The 4x14 floats of one glyph quad (renderer.py lines 442-448). -/
def glyphQuad (x y size : ℚ) (g : Glyph) (cU cL : List ℚ) : List ℚ :=
  [x + g.px0 * size, y + g.py0 * size, g.tx0, g.ty0, 1, 0, 0, 0, 0, 1.33] ++ cU ++
  [x + g.px1 * size, y + g.py0 * size, g.tx1, g.ty0, 1, 0, 0, 0, 0, 1.33] ++ cU ++
  [x + g.px0 * size, y + g.py1 * size, g.tx0, g.ty1, 1, 0, 0, 0, 0, 1.33] ++ cL ++
  [x + g.px1 * size, y + g.py1 * size, g.tx1, g.ty1, 1, 0, 0, 0, 0, 1.33] ++ cL

/-- The per-codepoint loop of `Renderer.text_line` (lines 436-450): apply
kerning, look the glyph up with fallback, emit a quad only for glyphs with an
image (flushing at capacity), always advance the pen. -/
def glyphLoop (f : Font) (y size : ℚ) (cU cL : List ℚ) :
    List ℕ → ℚ → ℕ → RState → RState
  | [], _, _, s => s
  | cp :: rest, x, prev, s =>
    let x := x + ((f.kern.lookup (prev, cp)).getD 0) * size
    let g := (f.glyphs.lookup cp).getD f.fallback
    let s := if g.valid then
        let s := if maxVboItems ≤ s.data.length then flushR s else s
        { s with data := s.data ++ glyphQuad x y size g cU cL }
      else s
    glyphLoop f y size cU cL rest (x + g.adv * size) cp s

/-- `Renderer.text_line` (lines 421-450): bind the font's atlas, parse the
colors, apply the alignment shift, then run the glyph loop. -/
def textLineR (s : RState) (x y size : ℚ) (text : List ℕ) (colorU : ColorArg)
    (colorL : Option ColorArg) (align : ℕ) : Except PyErr RState := do
  let s := setTexture s s.font.atlasTex s.font.atlasW s.font.atlasH
  let cU ← colorParse colorU
  let cL ← match colorL with
    | none => pure cU
    | some c => colorParse c
  let x := if align ≠ 0 then x - s.font.width text size / (align : ℚ) else x
  .ok (glyphLoop s.font y size cU cL text x 0 s)

/-! ## `Renderer.wrap_text` (renderer.py lines 473-509)

The generator is translated into a recursion over the character index; the
`nonlocal last_checked_line` variable is threaded as the `last` parameter
(every `check_width` call both returns the pair and becomes the new `last`).
Note the source slices `text[start:i-1]` at a forced newline, so the slice
stop can be negative (when the text starts with a newline). -/

/-- `check_width(subtext)` (lines 483-487): strip, then measure. -/
def checkWLine (f : Font) (size : ℚ) (sub : List ℕ) : List ℕ × ℚ :=
  let st := pyStrip sub
  (st, f.width st 1 * size)

/-- The scan loop of `wrap_text` plus its post-loop epilogue (lines 488-509),
as a recursion on the character index `i`.  `start`/`e` are the Python
`start`/`end` variables, `last` is `last_checked_line`. -/
def wrapAux (f : Font) (W size : ℚ) (text : List ℕ) :
    (i start e : ℕ) → (last : List ℕ × ℚ) → List (List ℕ × ℚ)
  | i, start, e, last =>
    if h : i < text.length then
      let c := text.get ⟨i, h⟩
      if c = 10 then
        -- `yield check_width(text[start:i-1]); start = end = i+1`
        let t := checkWLine f size (pySlice text start ((i : ℤ) - 1))
        t :: wrapAux f W size text (i + 1) (i + 1) (i + 1) t
      else if pyAlnum c then
        wrapAux f W size text (i + 1) start e last
      else
        let t1 := checkWLine f size (pySlice text start ((i : ℤ) + 1))
        if t1.2 ≤ W then
          wrapAux f W size text (i + 1) start (i + 1) t1
        else
          -- `if end > start: yield check_width(text[start:end])`, then
          -- `start = end`, re-measure, maybe emit the overflowing token.
          let t3 := checkWLine f size (pySlice text e ((i : ℤ) + 1))
          let cont :=
            if t3.2 > W then t3 :: wrapAux f W size text (i + 1) (i + 1) (i + 1) t3
            else wrapAux f W size text (i + 1) e (i + 1) t3
          if e > start then checkWLine f size (pySlice text start (e : ℤ)) :: cont
          else cont
    else
      -- epilogue (lines 504-509)
      let tF := checkWLine f size (pySlice text start (text.length : ℤ))
      if tF.2 ≤ W ∨ ¬ e > start then [tF]
      else if e > start then
        let t2 := checkWLine f size (pySlice text start (e : ℤ))
        let rest := pyStrip (pySlice text e (text.length : ℤ))
        t2 :: (if rest ≠ [] then [checkWLine f size rest] else [])
      else []
termination_by i _ _ _ => text.length - i
decreasing_by all_goals omega

/-- `Renderer.wrap_text(width, size, text)` as the list of yielded
`(line, line_width)` pairs. -/
def wrapText (f : Font) (W size : ℚ) (text : List ℕ) : List (List ℕ × ℚ) :=
  wrapAux f W size text 0 0 0 ([], 0)

/-! ## `Renderer.fit_text_in_box` (renderer.py lines 511-550) -/

/-- One line placement produced by `fit_text_in_box`:
`(x0, y0, x1, y1, size, line)`. -/
structure FitEntry where
  x0 : ℚ
  y0 : ℚ
  x1 : ℚ
  y1 : ℚ
  size : ℚ
  line : List ℕ
deriving DecidableEq

/-- `width = max(w for _, w in lines)` (line 535); the `[]` case is
unreachable — `wrap_text` always yields at least one line
(`wrapText_ne_nil`), so Python's `max` does not raise here. -/
def linesWidth (lines : List (List ℕ × ℚ)) : ℚ :=
  match lines.map Prod.snd with
  | [] => 0
  | w :: ws => ws.foldl max w

/-- The size-shrinking `while True` loop (lines 530-539), with explicit fuel
(the loop has no syntactic bound; termination is proved in `fitLoop_isSome`).
Returns the final `(size, lines, width, height)`. -/
def fitLoop (f : Font) (sx sy : ℚ) (text : List ℕ) (lsp msz : ℚ) :
    ℚ → ℕ → Option (ℚ × List (List ℕ × ℚ) × ℚ × ℚ)
  | _, 0 => none
  | size, fuel + 1 =>
    let lineH := f.maxHeight * size
    let lineDy := f.lineHeight * size * lsp
    let lines := wrapText f sx size text
    let width := linesWidth lines
    let height := lineDy * ((lines.length : ℚ) - 1) + lineH
    if size ≤ msz ∨ (width ≤ sx ∧ height ≤ sy) then some (size, lines, width, height)
    else fitLoop f sx sy text lsp msz (max (min (size * 0.9) (size - 1.0)) msz) fuel

/-- The layout loop of `fit_text_in_box` (lines 541-549): one placement per
wrapped line, advancing `y` by the line pitch. -/
def fitLayout (x0R x1R lineH lineDy size : ℚ) (halign : ℕ) :
    List (List ℕ × ℚ) → ℚ → List FitEntry
  | [], _ => []
  | (line, width) :: rest, y =>
    let x := if halign = 1 then x1R - width
      else if halign = 2 then (x0R + x1R - width) * 0.5
      else x0R
    ⟨x, y, x + width, y + lineH, size, line⟩ :: fitLayout x0R x1R lineH lineDy size halign rest (y + lineDy)

/-- `Renderer.fit_text_in_box`.  The internal fuel suffices for every input
(proved in `fitLoop_isSome`); `none` would mean the loop failed to reach its
exit condition within the fuel. -/
def fitTextInBox (f : Font) (x0 y0 x1 y1 initSize : ℚ) (text : List ℕ)
    (halign valign : ℕ) (lsp msz : ℚ) : Option (List FitEntry) :=
  let sx := x1 - x0
  let sy := y1 - y0
  match fitLoop f sx sy text lsp msz initSize ((⌈initSize - msz⌉).toNat + 1) with
  | none => none
  | some (size, lines, _, height) =>
    let lineH := f.maxHeight * size
    let lineDy := f.lineHeight * size * lsp
    let yS := if valign = 1 then y1 - height
      else if valign = 2 then (y0 + y1 - height) * 0.5
      else y0
    some (fitLayout x0 x1 lineH lineDy size halign lines yS)

/-! ## `TextureAtlas` (renderer.py lines 65-160)

The atlas state the claims speak about: the skyline `front` (a list of
`(x, yStart)` points), the backing image size, and `maxsize`.  A bitmap to
be `put` is abstracted by its pixel dimensions `(w, h)` (its pixel content
is irrelevant to placement).  `put` returns its result *and* the atlas
state, so that the state after a raised exception is observable (the raise
happens before any mutation in the source). -/

/-- A returned placement rectangle `(x0, y0, x1, y1)`. -/
structure Rect where
  x0 : ℕ
  y0 : ℕ
  x1 : ℕ
  y1 : ℕ
deriving DecidableEq, Repr

structure Atlas where
  front : List (ℕ × ℕ)
  imgW : ℕ
  imgH : ℕ
  maxsize : ℕ
deriving DecidableEq, Repr

/-- `TextureAtlas.__init__(initsize, maxsize)` (lines 72-81) without a GL
context: `front = [(0,0)]`, `maxsize = maxsize or 32768`. -/
def mkAtlas (initW initH maxsize : ℕ) : Atlas :=
  { front := [(0, 0)], imgW := initW, imgH := initH,
    maxsize := if maxsize = 0 then 32768 else maxsize }

/-- One doubling loop of `TextureAtlas._fit` (`while x1 > sx: sx *= 2`),
with fuel; `x1` doublings always suffice for a positive start size (for a
zero start size the Python loop would not terminate either). -/
def growDimAux (target : ℕ) : ℕ → ℕ → ℕ
  | s, 0 => s
  | s, fuel + 1 => if target ≤ s then s else growDimAux target (s * 2) fuel

def growDim (s target : ℕ) : ℕ := growDimAux target s target

/-- `TextureAtlas._fit(img, x0, y0)` (lines 83-89): the enclosing
power-of-two-doubled size `(sx, sy)` and its area. -/
def fitSize (imgW imgH x1 y1 : ℕ) : (ℕ × ℕ) × ℕ :=
  let sx := growDim imgW x1
  let sy := growDim imgH y1
  ((sx, sy), sx * sy)

/-- `consider = [j for j in range(i, len(front)) if front[j][1] < yend]`
(line 104). -/
def considerIdx (front : List (ℕ × ℕ)) (i yend : ℕ) : List ℕ :=
  (List.range' i (front.length - i)).filter
    (fun j => decide ((front.getD j (0, 0)).2 < yend))

/-- `front[j+1][1] if j+1 < len(front) else yend` (line 113). -/
def jyendOf (front : List (ℕ × ℕ)) (j yend : ℕ) : ℕ :=
  match front.get? (j + 1) with
  | some q => q.2
  | none => yend

/-- The waste accumulation loop over `consider` (lines 111-117), in `ℤ` with
Python floor division, starting from the fit-area increase. -/
def wasteSum (front : List (ℕ × ℕ)) (h x xend yend : ℕ) : ℤ → List ℕ → ℤ
  | acc, [] => acc
  | acc, j :: js =>
    let jx := (front.getD j (0, 0)).1
    let jystart := (front.getD j (0, 0)).2
    let jyend := jyendOf front j yend
    let jwaste : ℤ := ((x : ℤ) - jx) * (min (jyend : ℤ) (yend : ℤ) - jystart)
    let ewaste : ℤ :=
      if (jyend : ℤ) - (h : ℤ) < (yend : ℤ) ∧ (yend : ℤ) < (jyend : ℤ)
      then ((xend : ℤ) - jx) * ((jyend : ℤ) - yend) else 0
    wasteSum front h x xend yend (acc + jwaste + Int.fdiv ewaste 4) js

/-- Evaluate candidate `i` of `put`'s placement search (lines 101-118):
`ok none` when the candidate is skipped for exceeding `maxsize`,
`error emptyMax` for Python's `max()` on an empty `consider` list, otherwise
the resting position and its waste score. -/
def evalCand (a : Atlas) (w h : ℕ) (i : ℕ) : Except PyErr (Option (ℕ × ℕ × ℤ)) :=
  let y := (a.front.getD i (0, 0)).2
  let yend := y + h
  let cons := considerIdx a.front i yend
  match pyMax? (cons.map (fun j => (a.front.getD j (0, 0)).1)) with
  | none => .error .emptyMax
  | some x =>
    let xend := x + w
    if a.maxsize < max xend yend then .ok none
    else
      let curr : ℤ := (a.imgW : ℤ) * (a.imgH : ℤ)
      let waste0 : ℤ := ((fitSize a.imgW a.imgH xend yend).2 : ℤ) - curr
      .ok (some (x, y, wasteSum a.front h x xend yend waste0 cons))

/-- The candidate-selection fold of `put` (lines 98-121): `x0, y0 = -1, -1`
and `min_waste = 999999999`, keeping the first strict improvement. -/
def selectBest (a : Atlas) (w h : ℕ) : Except PyErr (Option (ℕ × ℕ)) :=
  (do
    let r ← (List.range a.front.length).foldlM
      (fun (best : Option (ℕ × ℕ) × ℤ) i => do
        match ← evalCand a w h i with
        | none => pure best
        | some (x, y, waste) =>
          pure (if waste < best.2 then (some (x, y), waste) else best))
      ((none : Option (ℕ × ℕ)), (999999999 : ℤ))
    pure r.1)

/-- The `for i in range(1, len(front))` scan that may insert a point at the
lower edge `y1` of the new image (lines 131-136); `prev` is `front[i-1]`. -/
def midScanAux (y0 y1 : ℕ) : List (ℕ × ℕ) → (ℕ × ℕ) → List (ℕ × ℕ)
  | [], _ => []
  | q :: rest, prev =>
    if q.2 < y1 then midScanAux y0 y1 rest q
    else if y1 < q.2 ∧ y0 ≤ prev.2 then [(prev.1, y1)] else []

def midScan (front : List (ℕ × ℕ)) (y0 y1 : ℕ) : List (ℕ × ℕ) :=
  match front with
  | [] => []
  | p :: rest => midScanAux y0 y1 rest p

/-- The front update of a successful `put` (renderer.py lines 125-140). -/
def newFront (front : List (ℕ × ℕ)) (x1 y0 y1 : ℕ) : List (ℕ × ℕ) :=
  let kept := front.filter (fun p => decide (p.2 < y0))
  let endL := front.filter (fun p => decide (y1 ≤ p.2))
  kept ++ [(x1, y0)] ++ midScan front y0 y1 ++
    (if endL.isEmpty then [(0, y1)] else []) ++ endL

/-- `TextureAtlas.put` on a bitmap of size `(w, h)` (lines 91-160): placement
search, `AtlasFullError` when no candidate is valid, front update, image
growth.  The pixel paste and GPU upload have no observable effect on the
modelled state. -/
def putA (a : Atlas) (w h : ℕ) : Except PyErr Rect × Atlas :=
  match selectBest a w h with
  | .error e => (.error e, a)
  | .ok none => (.error .atlasFull, a)
  | .ok (some (x0, y0)) =>
    let x1 := x0 + w
    let y1 := y0 + h
    let newfront := newFront a.front x1 y0 y1
    let ns := (fitSize a.imgW a.imgH x1 y1).1
    -- `if newsize > self.img.size` is a Python lexicographic tuple compare
    let grown := ns.1 > a.imgW ∨ (ns.1 = a.imgW ∧ ns.2 > a.imgH)
    let a' := { a with front := newfront,
                       imgW := if grown then ns.1 else a.imgW,
                       imgH := if grown then ns.2 else a.imgH }
    (.ok ⟨x0, y0, x1, y1⟩, a')

/-- A sequence of `put` calls, stopping at the first failure. -/
def runPuts (a : Atlas) : List (ℕ × ℕ) → Except PyErr (List Rect) × Atlas
  | [] => (.ok [], a)
  | d :: ds =>
    match putA a d.1 d.2 with
    | (.ok r, a') =>
      match runPuts a' ds with
      | (.ok rs, af) => (.ok (r :: rs), af)
      | (.error e, af) => (.error e, af)
    | (.error e, a') => (.error e, a')

/-! ## Shared auxiliary lemmas -/

/-- Every successfully parsed hex color has exactly 4 components. -/
theorem hexColorBody?_length {cs : List ℕ} {c : List ℚ} (h : hexColorBody? cs = some c) :
    c.length = 4 := by
  unfold hexColorBody? at h
  split at h <;>
    [skip; split at h <;> [skip; split at h <;> [skip; split at h <;> [skip; cases h]]]] <;>
    (try split at h) <;> (try split at h) <;> simp_all <;> (cases h; rfl)

theorem hexColor?_length {cs : List ℕ} {c : List ℚ} (h : hexColor? cs = some c) :
    c.length = 4 :=
  hexColorBody?_length h

/-- Every color successfully returned by `color.parse` has exactly 4
components. -/
theorem colorParse_length {arg : ColorArg} {c : List ℚ} (h : colorParse arg = .ok c) :
    c.length = 4 := by
  cases arg with
  | tup l =>
    simp only [colorParse] at h
    split at h
    · cases h; assumption
    · split at h
      · cases h; simp; omega
      · cases h; rfl
  | lst l =>
    simp only [colorParse] at h
    split at h
    · cases h; assumption
    · split at h
      · cases h; simp; omega
      · cases h
  | str cs =>
    simp only [colorParse, Except.ok.injEq] at h
    subst h
    cases hh : hexColor? cs with
    | none => simp [hh]; rfl
    | some c2 => simp [hh]; exact hexColor?_length hh

/-- Reduction of an `Except` bind on a known-ok value (used to push
hypotheses `colorParse c = .ok u` through the monadic definitions). -/
theorem exceptOkBind {ε α β : Type} (a : α) (f : α → Except ε β) :
    (do let x ← Except.ok a; f x : Except ε β) = f a := rfl

/-- `color.parse` never raises on a string argument. -/
theorem colorParse_str_ok (cs : List ℕ) : ∃ c, colorParse (.str cs) = .ok c :=
  ⟨_, rfl⟩

/-! ## Claim C10: `color.parse` -/

/-- **C10, counterexample.**  The claim says `parse` never raises and maps
every input other than 3/4-element tuples/lists to the error color
`(1.0, 0.0, 1.0, 1.0)`.  But a 2-element *list* is unhashable, so the cache
lookup `_importcache[c]` raises `TypeError` (uncaught: only `KeyError` is
handled); `parse([0.0, 0.0])` therefore raises instead of returning the
error color. -/
theorem colorParse_claim_cex :
    colorParse (.lst [0, 0]) = .error .typeError ∧
    colorParse (.lst [0, 0]) ≠ .ok errColor := by
  refine ⟨rfl, fun h => ?_⟩
  simp [colorParse] at h

/-- **C10, amended.**  `parse` returns 4-element tuples/lists unchanged and
appends alpha `1.0` to 3-element ones; tuples of any other length yield the
error color; *lists* of any other length raise `TypeError`; string arguments
never raise — they decode via Python `int(·, 16)` (which accepts surrounding
whitespace, a sign, and underscores between digits, e.g. `"-10000"` decodes
to a color with a *negative* red component) and fall back to the error
color. -/
theorem colorParse_amended :
    (∀ l : List ℚ, l.length = 4 →
      colorParse (.tup l) = .ok l ∧ colorParse (.lst l) = .ok l) ∧
    (∀ l : List ℚ, l.length = 3 →
      colorParse (.tup l) = .ok (l ++ [1]) ∧ colorParse (.lst l) = .ok (l ++ [1])) ∧
    (∀ l : List ℚ, l.length ≠ 3 → l.length ≠ 4 →
      colorParse (.tup l) = .ok errColor ∧ colorParse (.lst l) = .error .typeError) ∧
    (∀ cs : List ℕ, colorParse (.str cs) = .ok ((hexColor? cs).getD errColor) ∧
      ∃ c, colorParse (.str cs) = .ok c ∧ c.length = 4) ∧
    colorParse (.str [45, 49, 48, 48, 48, 48]) = .ok [-1 / 255, 0, 0, 1] := by
  refine ⟨?_, ?_, ?_, ?_, ?_⟩
  · intro l hl
    constructor <;> simp [colorParse, hl]
  · intro l hl
    constructor <;> simp [colorParse, hl]
  · intro l h3 h4
    constructor <;> simp [colorParse, h3, h4]
  · intro cs
    refine ⟨rfl, (hexColor? cs).getD errColor, rfl, ?_⟩
    cases hh : hexColor? cs with
    | none => simp [hh]; rfl
    | some c => simp [hh]; exact hexColor?_length hh
  · norm_num [colorParse, hexColor?, hexColorBody?, pyIntHex?, hexDigits?,
      hexDigitsAux, hexDigitVal?, pyStrip, pyWS, List.dropWhile, errColor]

/-- **C10, witness** for the amended theorem at concrete inputs. -/
theorem colorParse_amended_witness :
    colorParse (.tup [0, 0, 0, 0]) = .ok [0, 0, 0, 0] ∧
    colorParse (.lst [1, 1]) = .error .typeError :=
  ⟨(colorParse_amended.1 [0, 0, 0, 0] rfl).1,
   (colorParse_amended.2.2.1 [1, 1] (by simp) (by simp)).2⟩

/-! ## Claim C4: fallback glyph selection -/

/-- **C4, counterexample.**  The claim says a font containing none of
U+FFFD, `'?'`, space resolves every missing codepoint to a glyph with
*advance 0*; in the source the last-resort `_nullglyph` has advance `0.5`
(renderer.py line 193), not 0. -/
theorem chooseFallback_claim_cex :
    ¬ ((chooseFallback []).adv = 0) := by
  have h : chooseFallback [] = msdfNullGlyph := rfl
  rw [h]
  norm_num [msdfNullGlyph]

/-- **C4, amended.**  The fallback glyph is chosen by fixed priority
U+FFFD, then `'?'`, then space; a font with none of the three gets the
invisible `_nullglyph`, whose advance is `0.5` (half an em), not 0; glyph
lookup always falls back (never an error). -/
theorem chooseFallback_amended :
    (∀ gs : List (ℕ × Glyph), ∀ g, gs.lookup 0xFFFD = some g →
      chooseFallback gs = g) ∧
    (∀ gs : List (ℕ × Glyph), ∀ g, gs.lookup 0xFFFD = none →
      gs.lookup 63 = some g → chooseFallback gs = g) ∧
    (∀ gs : List (ℕ × Glyph), ∀ g, gs.lookup 0xFFFD = none →
      gs.lookup 63 = none → gs.lookup 32 = some g → chooseFallback gs = g) ∧
    (∀ gs : List (ℕ × Glyph), gs.lookup 0xFFFD = none → gs.lookup 63 = none →
      gs.lookup 32 = none → chooseFallback gs = msdfNullGlyph) ∧
    msdfNullGlyph.adv = 1 / 2 ∧ msdfNullGlyph.valid = false ∧
    (∀ (f : Font) (cp : ℕ), f.glyphs.lookup cp = none →
      (f.glyphs.lookup cp).getD f.fallback = f.fallback) := by
  refine ⟨?_, ?_, ?_, ?_, by norm_num [msdfNullGlyph], rfl, ?_⟩
  · intro gs g h
    simp [chooseFallback, h]
  · intro gs g h1 h2
    simp [chooseFallback, h1, h2]
  · intro gs g h1 h2 h3
    simp [chooseFallback, h1, h2, h3]
  · intro gs h1 h2 h3
    simp [chooseFallback, h1, h2, h3]
  · intro f cp h
    simp [h]

/-- **C4, witness** for the amended theorem: a font whose only glyph is a
space uses it as fallback; the empty font falls back to `_nullglyph`. -/
theorem chooseFallback_amended_witness :
    chooseFallback [(32, msdfNullGlyph)] = msdfNullGlyph ∧
    chooseFallback [] = msdfNullGlyph :=
  ⟨chooseFallback_amended.2.2.1 [(32, msdfNullGlyph)] msdfNullGlyph rfl rfl rfl,
   chooseFallback_amended.2.2.2.1 [] rfl rfl rfl⟩

/-! ## Claim C8: degenerate draw calls -/

/-- A concrete renderer state used by witnesses: empty buffer, texture 7
bound, the null font selected. -/
def testFont : Font := nullFont 7 16 16

def testState : RState :=
  { data := [], tex := 7, texW := 16, texH := 16, font := testFont,
    nquads := 0, nbatches := 0 }

/-- **C8, counterexample.**  The claim says a `box` call with zero/negative
dimensions leaves the buffered vertex data unchanged (appends no quad); in
the source `box` has no degeneracy check and always appends one quad of 56
floats: `box(0,0,0,0,...)` grows the buffer from 0 to 56 floats. -/
theorem box_degenerate_cex :
    testState.data.length = 0 ∧
    (boxR testState 0 0 0 0 (.str [102, 102, 102]) none 0 1 0).map
      (fun s => s.data.length) = .ok 56 := by
  exact ⟨rfl, rfl⟩

/-- **C8, amended.**  Degenerate draw calls raise no exception, but they are
not all no-ops at the vertex-buffer level: a `box` call — degenerate or not
(`x1 ≤ x0` or `y1 ≤ y0` included) — always appends exactly one quad (56
floats, after a capacity flush if needed), while `text_line` with the empty
string appends nothing (its whole effect is the `set_texture` call on the
current font's atlas). -/
theorem degenerate_draws_amended :
    (∀ (s : RState) (x0 y0 x1 y1 : ℚ) (cU : ColorArg) (cL : Option ColorArg)
      (radius blur offset : ℚ),
      (∃ u, colorParse cU = .ok u) →
      (∀ c, cL = some c → ∃ u, colorParse c = .ok u) →
      ∃ s', boxR s x0 y0 x1 y1 cU cL radius blur offset = .ok s' ∧
        s'.data.length = (if maxVboItems ≤ s.data.length then 0 else s.data.length) + 56) ∧
    (∀ (s : RState) (x y size : ℚ) (cU : ColorArg) (cL : Option ColorArg) (align : ℕ),
      (∃ u, colorParse cU = .ok u) →
      (∀ c, cL = some c → ∃ u, colorParse c = .ok u) →
      textLineR s x y size [] cU cL align =
        .ok (setTexture s s.font.atlasTex s.font.atlasW s.font.atlasH)) := by
  constructor
  · intro s x0 y0 x1 y1 cU cL radius blur offset hU hL
    obtain ⟨u, hu⟩ := hU
    have hulen : u.length = 4 := colorParse_length hu
    unfold boxR
    rw [hu]
    cases cL with
    | none =>
      simp only [exceptOkBind]
      refine ⟨_, rfl, ?_⟩
      by_cases hcap : maxVboItems ≤ s.data.length
      · have hne : ¬ s.data.length = 0 := by
          have : 0 < maxVboItems := by norm_num [maxVboItems, batchSize, vertexSize,
            vboItemsPerQuad, vertexAttribCount]
          omega
        simp [hcap, flushR, hne, hulen]
      · simp [hcap, hulen]
    | some c =>
      obtain ⟨v, hv⟩ := hL c rfl
      have hvlen : v.length = 4 := colorParse_length hv
      simp only [exceptOkBind]
      rw [hv]
      simp only [exceptOkBind]
      refine ⟨_, rfl, ?_⟩
      by_cases hcap : maxVboItems ≤ s.data.length
      · have hne : ¬ s.data.length = 0 := by
          have : 0 < maxVboItems := by norm_num [maxVboItems, batchSize, vertexSize,
            vboItemsPerQuad, vertexAttribCount]
          omega
        simp [hcap, flushR, hne, hulen, hvlen]
      · simp [hcap, hulen, hvlen]
  · intro s x y size cU cL align hU hL
    obtain ⟨u, hu⟩ := hU
    unfold textLineR
    rw [hu]
    cases cL with
    | none => rfl
    | some c =>
      obtain ⟨v, hv⟩ := hL c rfl
      simp only [exceptOkBind]
      rw [hv]
      simp only [exceptOkBind]
      rfl

/-- **C8, witness** for the amended theorem at concrete inputs. -/
theorem degenerate_draws_amended_witness :
    (∃ s', boxR testState 0 0 0 0 (.str [102, 102, 102]) none 0 1 0 = .ok s' ∧
      s'.data.length = (if maxVboItems ≤ testState.data.length then 0
        else testState.data.length) + 56) ∧
    textLineR testState 5 5 12 [] (.str [102, 102, 102]) none 2 =
      .ok (setTexture testState testState.font.atlasTex testState.font.atlasW
        testState.font.atlasH) :=
  ⟨degenerate_draws_amended.1 testState 0 0 0 0 _ none 0 1 0
      (colorParse_str_ok _) (fun c hc => by cases hc),
   degenerate_draws_amended.2 testState 5 5 12 _ none 2
      (colorParse_str_ok _) (fun c hc => by cases hc)⟩

/-! ## Claim C2: batching -/

/-- A draw call of a frame: `box(...)` or `text_line(...)`. -/
inductive Cmd where
  | boxC : ℚ → ℚ → ℚ → ℚ → ColorArg → Option ColorArg → ℚ → ℚ → ℚ → Cmd
  | textC : ℚ → ℚ → ℚ → List ℕ → ColorArg → Option ColorArg → ℕ → Cmd

def runCmd (s : RState) : Cmd → Except PyErr RState
  | .boxC x0 y0 x1 y1 cU cL r b o => boxR s x0 y0 x1 y1 cU cL r b o
  | .textC x y sz t cU cL al => textLineR s x y sz t cU cL al

def runCmds (s : RState) : List Cmd → Except PyErr RState
  | [] => .ok s
  | c :: cs =>
    match runCmd s c with
    | .ok s' => runCmds s' cs
    | .error e => .error e

/-- The number of codepoints of `text` that emit a glyph quad under font
`f` (glyphs with an image, after fallback). -/
def glyphCount (f : Font) (text : List ℕ) : ℕ :=
  (text.filter (fun cp => ((f.glyphs.lookup cp).getD f.fallback).valid)).length

/-- Quads buffered by one draw call: one per `box`, one per visible glyph
per `text_line`. -/
def cmdQuads (f : Font) : Cmd → ℕ
  | .boxC _ _ _ _ _ _ _ _ _ => 1
  | .textC _ _ _ t _ _ _ => glyphCount f t

def totalQuads (f : Font) (cmds : List Cmd) : ℕ :=
  (cmds.map (cmdQuads f)).sum

/-- The colors of a draw call parse successfully (true for all strings and
3/4-element tuples; rules out the `TypeError` of exotic list arguments). -/
def cmdColorsOk : Cmd → Prop
  | .boxC _ _ _ _ cU cL _ _ _ =>
    (∃ u, colorParse cU = .ok u) ∧ (∀ c, cL = some c → ∃ u, colorParse c = .ok u)
  | .textC _ _ _ _ cU cL _ =>
    (∃ u, colorParse cU = .ok u) ∧ (∀ c, cL = some c → ∃ u, colorParse c = .ok u)

/-- Batching invariant: the buffer holds exactly `k` whole quads, at most
the per-draw capacity. -/
def QInv (s : RState) (k : ℕ) : Prop :=
  s.data.length = vboItemsPerQuad * k ∧ k ≤ batchSize

theorem vboItemsPerQuad_eq : vboItemsPerQuad = 56 := rfl
theorem batchSize_eq : batchSize = 292 := rfl
theorem maxVboItems_eq : maxVboItems = 56 * 292 := rfl

/-- Glyph quads are 56 floats whenever the colors have 4 components. -/
theorem glyphQuad_length {x y size : ℚ} {g : Glyph} {cU cL : List ℚ}
    (hU : cU.length = 4) (hL : cL.length = 4) :
    (glyphQuad x y size g cU cL).length = 56 := by
  simp [glyphQuad, hU, hL]

/-- Counting step for the capacity-checked quad append shared by `box` and
`text_line`: flush exactly when the buffer holds `batch_size` quads. -/
theorem appendQuad_count (s : RState) (q : List ℚ) (k : ℕ)
    (hinv : QInv s k) (hq : q.length = 56) :
    QInv { (if maxVboItems ≤ s.data.length then flushR s else s) with
           data := (if maxVboItems ≤ s.data.length then flushR s else s).data ++ q }
      (if k = 292 then 1 else k + 1) ∧
    ((if maxVboItems ≤ s.data.length then flushR s else s).nbatches * 292 +
      (if k = 292 then 1 else k + 1) = s.nbatches * 292 + k + 1) ∧
    (if maxVboItems ≤ s.data.length then flushR s else s).tex = s.tex ∧
    (if maxVboItems ≤ s.data.length then flushR s else s).font = s.font := by
  obtain ⟨hlen, hk⟩ := hinv
  rw [vboItemsPerQuad_eq] at hlen
  rw [batchSize_eq] at hk
  by_cases hcap : (k = 292)
  · have hcap' : maxVboItems ≤ s.data.length := by
      rw [maxVboItems_eq, hlen, hcap]
    have hne : ¬ s.data.length = 0 := by
      rw [hlen, hcap]; omega
    subst hcap
    simp [hcap', flushR, hne, QInv, hq, vboItemsPerQuad_eq, batchSize_eq]
    omega
  · have hcap' : ¬ maxVboItems ≤ s.data.length := by
      rw [maxVboItems_eq, hlen]
      omega
    have hcap2 : ¬ maxVboItems ≤ 56 * k := by
      rw [maxVboItems_eq]
      omega
    simp [hcap', hcap2, QInv, hq, hlen, hcap, vboItemsPerQuad_eq, batchSize_eq]
    omega

/-- Per-call count for `box`: exactly one quad is buffered, flushing first
only at capacity. -/
theorem boxR_count (s : RState) (x0 y0 x1 y1 : ℚ) (cU : ColorArg) (cL : Option ColorArg)
    (radius blur offset : ℚ) (k : ℕ) (hinv : QInv s k)
    (hok : (∃ u, colorParse cU = .ok u) ∧ (∀ c, cL = some c → ∃ u, colorParse c = .ok u)) :
    ∃ s' k', boxR s x0 y0 x1 y1 cU cL radius blur offset = .ok s' ∧ QInv s' k' ∧
      s'.nbatches * 292 + k' = s.nbatches * 292 + k + 1 ∧
      s'.tex = s.tex ∧ s'.font = s.font := by
  obtain ⟨⟨u, hu⟩, hLok⟩ := hok
  have hulen : u.length = 4 := colorParse_length hu
  unfold boxR
  rw [hu]
  cases cL with
  | none =>
    simp only [exceptOkBind]
    have happ := appendQuad_count s
      ([x0, y0, -((x1 - x0) * 0.5), -((y1 - y0) * 0.5), 0, (x1 - x0) * 0.5, (y1 - y0) * 0.5,
          min (min ((x1 - x0) * 0.5) ((y1 - y0) * 0.5)) radius, offset, 1.0 / max blur (1.0 / 256)] ++ u ++
       [x1, y0, (x1 - x0) * 0.5, -((y1 - y0) * 0.5), 0, (x1 - x0) * 0.5, (y1 - y0) * 0.5,
          min (min ((x1 - x0) * 0.5) ((y1 - y0) * 0.5)) radius, offset, 1.0 / max blur (1.0 / 256)] ++ u ++
       [x0, y1, -((x1 - x0) * 0.5), (y1 - y0) * 0.5, 0, (x1 - x0) * 0.5, (y1 - y0) * 0.5,
          min (min ((x1 - x0) * 0.5) ((y1 - y0) * 0.5)) radius, offset, 1.0 / max blur (1.0 / 256)] ++ u ++
       [x1, y1, (x1 - x0) * 0.5, (y1 - y0) * 0.5, 0, (x1 - x0) * 0.5, (y1 - y0) * 0.5,
          min (min ((x1 - x0) * 0.5) ((y1 - y0) * 0.5)) radius, offset, 1.0 / max blur (1.0 / 256)] ++ u)
      k hinv (by simp [hulen])
    exact ⟨_, (if k = 292 then 1 else k + 1), rfl, happ.1, by simpa using happ.2.1,
      by simpa using happ.2.2.1, by simpa using happ.2.2.2⟩
  | some c =>
    obtain ⟨v, hv⟩ := hLok c rfl
    have hvlen : v.length = 4 := colorParse_length hv
    simp only [exceptOkBind]
    rw [hv]
    simp only [exceptOkBind]
    have happ := appendQuad_count s
      ([x0, y0, -((x1 - x0) * 0.5), -((y1 - y0) * 0.5), 0, (x1 - x0) * 0.5, (y1 - y0) * 0.5,
          min (min ((x1 - x0) * 0.5) ((y1 - y0) * 0.5)) radius, offset, 1.0 / max blur (1.0 / 256)] ++ u ++
       [x1, y0, (x1 - x0) * 0.5, -((y1 - y0) * 0.5), 0, (x1 - x0) * 0.5, (y1 - y0) * 0.5,
          min (min ((x1 - x0) * 0.5) ((y1 - y0) * 0.5)) radius, offset, 1.0 / max blur (1.0 / 256)] ++ u ++
       [x0, y1, -((x1 - x0) * 0.5), (y1 - y0) * 0.5, 0, (x1 - x0) * 0.5, (y1 - y0) * 0.5,
          min (min ((x1 - x0) * 0.5) ((y1 - y0) * 0.5)) radius, offset, 1.0 / max blur (1.0 / 256)] ++ v ++
       [x1, y1, (x1 - x0) * 0.5, (y1 - y0) * 0.5, 0, (x1 - x0) * 0.5, (y1 - y0) * 0.5,
          min (min ((x1 - x0) * 0.5) ((y1 - y0) * 0.5)) radius, offset, 1.0 / max blur (1.0 / 256)] ++ v)
      k hinv (by simp [hulen, hvlen])
    exact ⟨_, (if k = 292 then 1 else k + 1), rfl, happ.1, by simpa using happ.2.1,
      by simpa using happ.2.2.1, by simpa using happ.2.2.2⟩

/-- Per-glyph counting for the `text_line` loop: each glyph with an image
buffers one quad (with capacity flush), invisible glyphs buffer nothing. -/
theorem glyphLoop_count (f : Font) (y size : ℚ) (cU cL : List ℚ)
    (hU : cU.length = 4) (hL : cL.length = 4) :
    ∀ (cps : List ℕ) (x : ℚ) (prev : ℕ) (s : RState) (k : ℕ), QInv s k →
    ∃ k', QInv (glyphLoop f y size cU cL cps x prev s) k' ∧
      (glyphLoop f y size cU cL cps x prev s).nbatches * 292 + k' =
        s.nbatches * 292 + k + glyphCount f cps ∧
      (glyphLoop f y size cU cL cps x prev s).tex = s.tex ∧
      (glyphLoop f y size cU cL cps x prev s).font = s.font
  | [], x, prev, s, k, hinv => ⟨k, hinv, by simp [glyphLoop, glyphCount], rfl, rfl⟩
  | cp :: rest, x, prev, s, k, hinv => by
    rw [glyphLoop]
    by_cases hv : ((f.glyphs.lookup cp).getD f.fallback).valid
    · simp only [hv, if_true]
      have happ := appendQuad_count s
        (glyphQuad (x + ((f.kern.lookup (prev, cp)).getD 0) * size) y size
          ((f.glyphs.lookup cp).getD f.fallback) cU cL)
        k hinv (glyphQuad_length hU hL)
      obtain ⟨k2, hrest⟩ := glyphLoop_count f y size cU cL hU hL rest
        (x + ((f.kern.lookup (prev, cp)).getD 0) * size +
          ((f.glyphs.lookup cp).getD f.fallback).adv * size) cp
        { (if maxVboItems ≤ s.data.length then flushR s else s) with
          data := (if maxVboItems ≤ s.data.length then flushR s else s).data ++
            glyphQuad (x + ((f.kern.lookup (prev, cp)).getD 0) * size) y size
              ((f.glyphs.lookup cp).getD f.fallback) cU cL }
        (if k = 292 then 1 else k + 1) happ.1
      refine ⟨k2, hrest.1, ?_, ?_, ?_⟩
      · rw [hrest.2.1]
        have h1 := happ.2.1
        have hcnt : glyphCount f (cp :: rest) = glyphCount f rest + 1 := by
          simp [glyphCount, hv]
        rw [hcnt]
        simp only at h1 ⊢
        omega
      · rw [hrest.2.2.1]
        simpa using happ.2.2.1
      · rw [hrest.2.2.2]
        simpa using happ.2.2.2
    · simp only [hv, if_false]
      obtain ⟨k2, hrest⟩ := glyphLoop_count f y size cU cL hU hL rest
        (x + ((f.kern.lookup (prev, cp)).getD 0) * size +
          ((f.glyphs.lookup cp).getD f.fallback).adv * size) cp s k hinv
      have hcnt : glyphCount f (cp :: rest) = glyphCount f rest := by
        simp [glyphCount, hv]
      exact ⟨k2, hrest.1, by rw [hcnt]; exact hrest.2.1, hrest.2.2.1, hrest.2.2.2⟩

/-- Per-call counting for `text_line` when the bound texture is already the
font's atlas (the `set_texture` call is then a no-op). -/
theorem textLineR_count (s : RState) (x y size : ℚ) (text : List ℕ) (cU : ColorArg)
    (cL : Option ColorArg) (align : ℕ) (k : ℕ) (hinv : QInv s k)
    (hok : (∃ u, colorParse cU = .ok u) ∧ (∀ c, cL = some c → ∃ u, colorParse c = .ok u))
    (htex : s.font.atlasTex = s.tex) :
    ∃ s' k', textLineR s x y size text cU cL align = .ok s' ∧ QInv s' k' ∧
      s'.nbatches * 292 + k' = s.nbatches * 292 + k + glyphCount s.font text ∧
      s'.tex = s.tex ∧ s'.font = s.font := by
  obtain ⟨⟨u, hu⟩, hLok⟩ := hok
  have hulen : u.length = 4 := colorParse_length hu
  have hset : setTexture s s.font.atlasTex s.font.atlasW s.font.atlasH = s := by
    simp [setTexture, htex]
  unfold textLineR
  rw [hset, hu]
  cases cL with
  | none =>
    simp only [exceptOkBind]
    obtain ⟨k', hgl⟩ := glyphLoop_count s.font y size u u hulen hulen text
      (if align ≠ 0 then x - s.font.width text size / (align : ℚ) else x) 0 s k hinv
    exact ⟨_, k', rfl, hgl.1, hgl.2.1, hgl.2.2.1, hgl.2.2.2⟩
  | some c =>
    obtain ⟨v, hv⟩ := hLok c rfl
    have hvlen : v.length = 4 := colorParse_length hv
    simp only [exceptOkBind]
    rw [hv]
    simp only [exceptOkBind]
    obtain ⟨k', hgl⟩ := glyphLoop_count s.font y size u v hulen hvlen text
      (if align ≠ 0 then x - s.font.width text size / (align : ℚ) else x) 0 s k hinv
    exact ⟨_, k', rfl, hgl.1, hgl.2.1, hgl.2.2.1, hgl.2.2.2⟩

/-- Counting over a whole command sequence. -/
theorem runCmds_count :
    ∀ (cmds : List Cmd) (s : RState) (k : ℕ), QInv s k →
    (∀ c ∈ cmds, cmdColorsOk c) → s.font.atlasTex = s.tex →
    ∃ s' k', runCmds s cmds = .ok s' ∧ QInv s' k' ∧
      s'.nbatches * 292 + k' = s.nbatches * 292 + k + totalQuads s.font cmds ∧
      s'.tex = s.tex ∧ s'.font = s.font
  | [], s, k, hinv, _, _ => ⟨s, k, rfl, hinv, by simp [totalQuads], rfl, rfl⟩
  | c :: cs, s, k, hinv, hok, htex => by
    have hc := hok c (by simp)
    have hcs : ∀ c' ∈ cs, cmdColorsOk c' := fun c' hc' => hok c' (by simp [hc'])
    cases c with
    | boxC x0 y0 x1 y1 cU cL r b o =>
      obtain ⟨s1, k1, hrun, hinv1, hcount1, htex1, hfont1⟩ :=
        boxR_count s x0 y0 x1 y1 cU cL r b o k hinv hc
      obtain ⟨s', k', hrun', hinv', hcount', htex', hfont'⟩ :=
        runCmds_count cs s1 k1 hinv1 hcs (by rw [hfont1, htex1]; exact htex)
      refine ⟨s', k', ?_, hinv', ?_, by rw [htex', htex1], by rw [hfont', hfont1]⟩
      · simp only [runCmds, runCmd, hrun]
        exact hrun'
      · rw [hcount', hfont1]
        simp only [totalQuads, List.map_cons, List.sum_cons, cmdQuads]
        omega
    | textC x y sz t cU cL al =>
      obtain ⟨s1, k1, hrun, hinv1, hcount1, htex1, hfont1⟩ :=
        textLineR_count s x y sz t cU cL al k hinv hc htex
      obtain ⟨s', k', hrun', hinv', hcount', htex', hfont'⟩ :=
        runCmds_count cs s1 k1 hinv1 hcs (by rw [hfont1, htex1]; exact htex)
      refine ⟨s', k', ?_, hinv', ?_, by rw [htex', htex1], by rw [hfont', hfont1]⟩
      · simp only [runCmds, runCmd, hrun]
        exact hrun'
      · rw [hcount', hfont1]
        simp only [totalQuads, List.map_cons, List.sum_cons, cmdQuads]
        omega

/-- **C2 (confirmed).**  For any frame of `box`/`text_line` calls whose
colors parse and whose text uses the bound atlas texture (constant bound
texture), the number of GPU draw calls issued by `end_frame`
(`nbatches`, one `gl.DrawElements` per non-empty flush) is exactly
`ceil(totalQuads / batch_size)` with `batch_size = 292`; and `set_texture`
with the current texture is a no-op while any other texture forces a flush
of all buffered quads before rebinding. -/
theorem batching_correctness :
    (∀ (s0 : RState) (cmds : List Cmd),
      s0.font.atlasTex = s0.tex →
      (∀ c ∈ cmds, cmdColorsOk c) →
      (runCmds (beginFrame s0) cmds).map (fun s => (endFrameR s).nbatches) =
        .ok ((totalQuads s0.font cmds + (batchSize - 1)) / batchSize)) ∧
    (∀ (s : RState) (tex : ℕ) (w h : ℚ),
      (tex = s.tex → setTexture s tex w h = s) ∧
      (tex ≠ s.tex → setTexture s tex w h =
        { flushR s with tex := tex, texW := w, texH := h })) := by
  constructor
  · intro s0 cmds htex hcolors
    have hinv0 : QInv (beginFrame s0) 0 := by simp [beginFrame, QInv]
    have htex0 : (beginFrame s0).font.atlasTex = (beginFrame s0).tex := htex
    obtain ⟨s', k', hrun, ⟨hlen, hk⟩, hcount, -, -⟩ :=
      runCmds_count cmds (beginFrame s0) 0 hinv0 hcolors htex0
    rw [hrun]
    simp only [Except.map, endFrameR, flushR]
    have hfont0 : (beginFrame s0).font = s0.font := rfl
    rw [hfont0] at hcount
    simp only [beginFrame] at hcount
    rw [vboItemsPerQuad_eq] at hlen
    rw [batchSize_eq] at hk
    rw [batchSize_eq]
    by_cases hz : s'.data.length = 0
    · have hk0 : k' = 0 := by omega
      simp only [hz, if_true, Except.ok.injEq]
      omega
    · have hk0 : k' ≠ 0 := by
        intro h
        rw [h] at hlen
        omega
      simp only [hz, if_false, Except.ok.injEq]
      omega
  · intro s tex w h
    constructor
    · intro heq
      simp [setTexture, heq]
    · intro hne
      simp [setTexture, hne]

/-- **C2, witness**: a frame of 3 boxes and one two-glyph text line under a
one-glyph font bound to the frame's texture issues exactly
`ceil(4 / 292) = 1` draw call. -/
def witFont : Font :=
  { glyphs := [(65, ⟨0.5, true, 0, 0, 1, 1, 0, 0, 8, 8⟩)], kern := [],
    fallback := msdfNullGlyph, lineHeight := 1, maxHeight := 1, baseline := 1,
    atlasTex := 7, atlasW := 16, atlasH := 16 }

def witState : RState :=
  { data := [], tex := 7, texW := 16, texH := 16, font := witFont,
    nquads := 0, nbatches := 0 }

def witCmds : List Cmd :=
  [.boxC 0 0 10 10 (.str [102, 102, 102]) none 0 1 0,
   .boxC 1 1 2 2 (.tup [1, 0, 0, 1]) (some (.tup [0, 1, 0])) 3 1 0,
   .textC 0 0 12 [65, 66] (.str [48, 48, 48]) none 0,
   .boxC 5 5 6 6 (.str [35, 102, 102, 48, 48, 49, 50]) none 0 1 0]

theorem batching_correctness_witness :
    (runCmds (beginFrame witState) witCmds).map (fun s => (endFrameR s).nbatches) =
      .ok ((totalQuads witState.font witCmds + (batchSize - 1)) / batchSize) := by
  apply batching_correctness.1 witState witCmds rfl
  intro c hc
  simp only [witCmds, List.mem_cons, List.mem_singleton] at hc
  rcases hc with rfl | rfl | rfl | rfl | h
  · exact ⟨colorParse_str_ok _, fun c hc => by cases hc⟩
  · exact ⟨⟨_, rfl⟩, fun c hc => by cases hc; exact ⟨_, rfl⟩⟩
  · exact ⟨colorParse_str_ok _, fun c hc => by cases hc⟩
  · exact ⟨colorParse_str_ok _, fun c hc => by cases hc⟩
  · cases h

/-! ## Claim C3: oversized bitmaps -/

/-- `pyMax?` of a non-empty list is `some`. -/
theorem pyMax?_isSome {l : List ℕ} (h : l ≠ []) : ∃ x, pyMax? l = some x := by
  cases l with
  | nil => exact absurd rfl h
  | cons x xs => exact ⟨_, rfl⟩

/-- A candidate index is always in its own `consider` list for a bitmap of
positive height. -/
theorem considerIdx_self_mem {front : List (ℕ × ℕ)} {i h : ℕ} (hi : i < front.length)
    (hh : 1 ≤ h) : i ∈ considerIdx front i ((front.getD i (0, 0)).2 + h) := by
  rw [considerIdx, List.mem_filter]
  constructor
  · rw [List.mem_range'_1]
    omega
  · simp
    omega

/-- For a bitmap of positive height exceeding `maxsize` in either axis,
every placement candidate is skipped. -/
theorem evalCand_skip {a : Atlas} {w h : ℕ} (hh : 1 ≤ h)
    (hbig : a.maxsize < max w h) {i : ℕ} (hi : i < a.front.length) :
    evalCand a w h i = .ok none := by
  have hmem : i ∈ considerIdx a.front i ((a.front.getD i (0, 0)).2 + h) :=
    considerIdx_self_mem hi hh
  have hne : (considerIdx a.front i ((a.front.getD i (0, 0)).2 + h)).map
      (fun j => (a.front.getD j (0, 0)).1) ≠ [] := by
    intro hnil
    rw [List.map_eq_nil_iff] at hnil
    rw [hnil] at hmem
    cases hmem
  obtain ⟨x, hx⟩ := pyMax?_isSome hne
  have hlt : a.maxsize < max (x + w) ((a.front.getD i (0, 0)).2 + h) := by
    rcases max_cases w h with ⟨hm, -⟩ | ⟨hm, -⟩ <;> rw [hm] at hbig <;> omega
  simp only [evalCand, hx, hlt, if_true]

/-- Folding the selection over candidates that are all skipped keeps the
`(-1, -1)` sentinel. -/
theorem selectFold_all_skip {a : Atlas} {w h : ℕ} :
    ∀ (l : List ℕ) (acc : Option (ℕ × ℕ) × ℤ),
    (∀ i ∈ l, evalCand a w h i = .ok none) →
    l.foldlM
      (fun (best : Option (ℕ × ℕ) × ℤ) i => do
        match ← evalCand a w h i with
        | none => pure best
        | some (x, y, waste) =>
          pure (if waste < best.2 then (some (x, y), waste) else best))
      acc = .ok acc
  | [], acc, _ => rfl
  | i :: is, acc, hall => by
    rw [List.foldlM_cons, hall i (by simp)]
    exact selectFold_all_skip is acc fun j hj => hall j (by simp [hj])

/-- **C3, amended.**  For every bitmap of *positive height* whose width or
height exceeds `maxsize`, `put` raises `AtlasFullError` and leaves the whole
atlas state (front list, image size, maxsize) unchanged. -/
theorem atlas_capacity_amended (a : Atlas) (w h : ℕ) (hh : 1 ≤ h)
    (hbig : a.maxsize < max w h) :
    putA a w h = (.error .atlasFull, a) := by
  have hsel : selectBest a w h = .ok none := by
    unfold selectBest
    have := selectFold_all_skip (a := a) (w := w) (h := h)
      (List.range a.front.length) ((none : Option (ℕ × ℕ)), (999999999 : ℤ))
      (fun i hi => evalCand_skip hh hbig (List.mem_range.mp hi))
    rw [this]
    rfl
  unfold putA
  rw [hsel]

/-- **C3, witness** for the amended theorem. -/
theorem atlas_capacity_amended_witness :
    putA (mkAtlas 16 16 64) 100 1 = (.error .atlasFull, mkAtlas 16 16 64) :=
  atlas_capacity_amended (mkAtlas 16 16 64) 100 1 (by norm_num) (by norm_num [mkAtlas])

/-- **C3, counterexample.**  The claim says *every* oversized bitmap raises
`AtlasFullError`; but a zero-height bitmap (PIL allows zero-size images)
makes every candidate's `consider` list empty, so line 105's
`max(...)` raises a plain `ValueError` ("max() arg is an empty sequence"),
which is not an `AtlasFullError` — before the capacity check is reached. -/
theorem atlas_capacity_cex :
    putA (mkAtlas 512 512 1024) 2000 0 = (.error .emptyMax, mkAtlas 512 512 1024) ∧
    PyErr.emptyMax ≠ PyErr.atlasFull := by
  exact ⟨by decide, by decide⟩

/-! ## Claims C1 and C7: atlas skyline invariants

The `front` list is interpreted as a skyline: point `(x_j, y_j)` asserts
that the rows `y_j ≤ py < y_{j+1}` (the last segment extending to infinity)
are free of previously placed rectangles at all columns `px ≥ x_j`.
`skyX front py` is the skyline column of row `py`. -/

/-- `front` is strictly sorted by `yStart`. -/
def frontSorted (l : List (ℕ × ℕ)) : Prop :=
  l.Pairwise (fun p q => p.2 < q.2)

/-- The skyline column at row `py`: the `x` of the last front point whose
segment contains `py`. -/
def skyX : List (ℕ × ℕ) → ℕ → ℕ
  | [], _ => 0
  | [p], _ => p.1
  | p :: q :: rest, py => if py < q.2 then p.1 else skyX (q :: rest) py

/-- `yStart` of the last front point (0 for an empty front). -/
def lastYD (l : List (ℕ × ℕ)) : ℕ := ((l.getLast?).getD (0, 0)).2

def inRect (r : Rect) (px py : ℕ) : Prop :=
  r.x0 ≤ px ∧ px < r.x1 ∧ r.y0 ≤ py ∧ py < r.y1

def rectDisjoint (r s : Rect) : Prop :=
  ∀ px py, ¬ (inRect r px py ∧ inRect s px py)

/-- The reachable-state invariant of the atlas packer, carrying the placed
rectangles: the front is a sorted skyline starting at row 0, every placed
rectangle is disjoint from the skyline's free region, and no placed
rectangle reaches below the last front point. -/
structure AtlasInv (a : Atlas) (rects : List Rect) : Prop where
  ne : a.front ≠ []
  sorted : frontSorted a.front
  head0 : (a.front.headI).2 = 0
  freeDisj : ∀ r ∈ rects, ∀ px py, skyX a.front py ≤ px → ¬ inRect r px py
  below : ∀ r ∈ rects, r.y1 ≤ lastYD a.front

/-- `skyX` returns the `x` of the `y`-maximal front point at or below the
row, for a sorted front whose first point is at or below the row. -/
theorem skyX_spec : ∀ (l : List (ℕ × ℕ)) (py : ℕ), frontSorted l → l ≠ [] →
    (l.headI).2 ≤ py →
    ∃ p, p ∈ l ∧ p.2 ≤ py ∧ skyX l py = p.1 ∧ ∀ q ∈ l, q.2 ≤ py → q.2 ≤ p.2
  | [], _, _, hne, _ => absurd rfl hne
  | [p], py, _, _, hh =>
    ⟨p, by simp, by simpa using hh, rfl, by
      intro q hq _
      simp at hq
      simp [hq]⟩
  | p :: q :: rest, py, hs, _, hh => by
    rw [frontSorted, List.pairwise_cons] at hs
    obtain ⟨hp, hs'⟩ := hs
    by_cases hpy : py < q.2
    · refine ⟨p, by simp, by simpa using hh, by simp [skyX, hpy], ?_⟩
      intro q' hq' hq'le
      rcases List.mem_cons.mp hq' with rfl | hq'mem
      · exact le_refl _
      · have : q.2 ≤ q'.2 := by
          rcases List.mem_cons.mp hq'mem with rfl | hmem
          · exact le_refl _
          · exact le_of_lt ((List.pairwise_cons.mp hs').1 q' hmem)
        omega
    · have hq2 : q.2 ≤ py := by omega
      obtain ⟨p', hp'mem, hp'le, hp'sky, hp'max⟩ :=
        skyX_spec (q :: rest) py hs' (by simp) (by simpa using hq2)
      refine ⟨p', List.mem_cons_of_mem _ hp'mem, hp'le, by simp [skyX, hpy, hp'sky], ?_⟩
      intro q' hq' hq'le
      rcases List.mem_cons.mp hq' with rfl | hq'mem
      · have hqp' : q.2 ≤ p'.2 := by
          rcases List.mem_cons.mp hp'mem with rfl | hmem
          · exact le_refl _
          · exact le_of_lt ((List.pairwise_cons.mp hs').1 p' hmem)
        have := hp q (by simp)
        omega
      · exact hp'max q' hq'mem hq'le

/-- Appending points strictly above the row does not change the skyline
column. -/
theorem skyX_append_lt : ∀ (L M : List (ℕ × ℕ)) (py : ℕ), L ≠ [] →
    (M = [] ∨ py < (M.headI).2) → skyX (L ++ M) py = skyX L py
  | [], _, _, hne, _ => absurd rfl hne
  | [p], M, py, _, hM => by
    rcases hM with rfl | hlt
    · simp
    · cases M with
      | nil => simp
      | cons m ms => simp [skyX, show py < m.2 by simpa using hlt]
  | p :: p2 :: L', M, py, _, hM => by
    have ih := skyX_append_lt (p2 :: L') M py (by simp) hM
    simp only [List.cons_append] at ih ⊢
    by_cases hpy : py < p2.2
    · simp [skyX, hpy]
    · simp only [skyX, hpy, if_false]
      exact ih

/-- If every point of the first part is at or below the row, the skyline
column comes from the second part. -/
theorem skyX_append_ge : ∀ (L M : List (ℕ × ℕ)) (py : ℕ), M ≠ [] →
    (∀ q ∈ L, q.2 ≤ py) → (M.headI).2 ≤ py → skyX (L ++ M) py = skyX M py
  | [], _, _, _, _, _ => by simp
  | [p], M, py, hMne, hL, hM => by
    cases M with
    | nil => exact absurd rfl hMne
    | cons m ms =>
      have : ¬ py < m.2 := by
        simp at hM
        omega
      simp [skyX, this]
  | p :: p2 :: L', M, py, hMne, hL, hM => by
    have h2 : ¬ py < p2.2 := by
      have := hL p2 (by simp)
      omega
    have ih := skyX_append_ge (p2 :: L') M py hMne
      (fun q hq => hL q (List.mem_cons_of_mem _ hq)) hM
    simp only [List.cons_append] at ih ⊢
    simp only [skyX, h2, if_false]
    exact ih

/-- If every front point is at or below the row, the skyline column is the
last point's. -/
theorem skyX_all_le : ∀ (l : List (ℕ × ℕ)) (py : ℕ), l ≠ [] →
    (∀ q ∈ l, q.2 ≤ py) → skyX l py = ((l.getLast?).getD (0, 0)).1
  | [], _, hne, _ => absurd rfl hne
  | [p], py, _, _ => rfl
  | p :: q :: rest, py, _, hall => by
    have hq : ¬ py < q.2 := by
      have := hall q (by simp)
      omega
    have ih := skyX_all_le (q :: rest) py (by simp)
      (fun r hr => hall r (List.mem_cons_of_mem _ hr))
    simp only [skyX, hq, if_false]
    rw [ih, List.getLast?_cons_cons]

/-- A sorted front splits into the points below `y0`, those in `[y0, y1)`,
and those at or above `y1`, in order. -/
theorem sorted_three_split : ∀ (l : List (ℕ × ℕ)), frontSorted l → ∀ (y0 y1 : ℕ), y0 ≤ y1 →
    l = l.filter (fun p => decide (p.2 < y0)) ++
        l.filter (fun p => decide (y0 ≤ p.2 ∧ p.2 < y1)) ++
        l.filter (fun p => decide (y1 ≤ p.2))
  | [], _, _, _, _ => rfl
  | a :: t, hs, y0, y1, hy => by
    rw [frontSorted, List.pairwise_cons] at hs
    obtain ⟨ha, hs'⟩ := hs
    have ih := sorted_three_split t hs' y0 y1 hy
    rcases lt_or_le a.2 y0 with h1 | h1
    · have hm : ¬ (y0 ≤ a.2 ∧ a.2 < y1) := by omega
      have he : ¬ y1 ≤ a.2 := by omega
      rw [List.filter_cons, List.filter_cons, List.filter_cons]
      rw [if_pos (by simpa using h1), if_neg (by simpa using hm),
        if_neg (by simpa using he)]
      simpa using ih
    · rcases lt_or_le a.2 y1 with h2 | h2
      · have hm : (y0 ≤ a.2 ∧ a.2 < y1) := ⟨h1, h2⟩
        have h1' : ¬ a.2 < y0 := by omega
        have he : ¬ y1 ≤ a.2 := by omega
        have htk : t.filter (fun p => decide (p.2 < y0)) = [] := by
          rw [List.filter_eq_nil_iff]
          intro p hp
          have := ha p hp
          simp
          omega
        rw [List.filter_cons, List.filter_cons, List.filter_cons]
        rw [if_neg (by simpa using h1'), if_pos (by simpa using hm),
          if_neg (by simpa using he)]
        rw [htk] at ih ⊢
        simpa using ih
      · have h1' : ¬ a.2 < y0 := by omega
        have hm : ¬ (y0 ≤ a.2 ∧ a.2 < y1) := by omega
        have htk : t.filter (fun p => decide (p.2 < y0)) = [] := by
          rw [List.filter_eq_nil_iff]
          intro p hp
          have := ha p hp
          simp
          omega
        have htm : t.filter (fun p => decide (y0 ≤ p.2 ∧ p.2 < y1)) = [] := by
          rw [List.filter_eq_nil_iff]
          intro p hp
          have := ha p hp
          simp
          omega
        rw [List.filter_cons, List.filter_cons, List.filter_cons]
        rw [if_neg (by simpa using h1'), if_neg (by simpa using hm),
          if_pos (by simpa using h2)]
        rw [htk, htm] at ih ⊢
        simpa using ih

/-- Scanning past points strictly below `y1` only updates the running
predecessor. -/
theorem midScanAux_append (y0 y1 : ℕ) : ∀ (A B : List (ℕ × ℕ)) (prev : ℕ × ℕ),
    (∀ q ∈ A, q.2 < y1) →
    midScanAux y0 y1 (A ++ B) prev = midScanAux y0 y1 B ((A.getLast?).getD prev)
  | [], B, prev, _ => rfl
  | a :: A', B, prev, hall => by
    have ha : a.2 < y1 := hall a (by simp)
    have ih := midScanAux_append y0 y1 A' B a
      (fun q hq => hall q (List.mem_cons_of_mem _ hq))
    simp only [List.cons_append, midScanAux, ha, if_pos, List.append_eq]
    rw [ih]
    congr 1
    cases A' with
    | nil => rfl
    | cons b bs =>
      rw [List.getLast?_cons_cons]
      cases hlast : (b :: bs).getLast? with
      | none =>
        rw [List.getLast?_eq_none_iff] at hlast
        cases hlast
      | some v => simp [hlast]

/-- Membership facts for the three filters of the front update. -/
theorem mem_keptY {front : List (ℕ × ℕ)} {y0 : ℕ} {p : ℕ × ℕ}
    (h : p ∈ front.filter (fun p => decide (p.2 < y0))) : p ∈ front ∧ p.2 < y0 := by
  rw [List.mem_filter] at h
  simpa using h

theorem mem_midsY {front : List (ℕ × ℕ)} {y0 y1 : ℕ} {p : ℕ × ℕ}
    (h : p ∈ front.filter (fun p => decide (y0 ≤ p.2 ∧ p.2 < y1))) :
    p ∈ front ∧ y0 ≤ p.2 ∧ p.2 < y1 := by
  rw [List.mem_filter] at h
  simpa using h

theorem mem_endY {front : List (ℕ × ℕ)} {y1 : ℕ} {p : ℕ × ℕ}
    (h : p ∈ front.filter (fun p => decide (y1 ≤ p.2))) : p ∈ front ∧ y1 ≤ p.2 := by
  rw [List.mem_filter] at h
  simpa using h

theorem getLast?_getD_cons {α : Type} (l : List α) (a d : α) :
    (((a :: l).getLast?).getD d) = ((l.getLast?).getD a) := by
  cases l with
  | nil => rfl
  | cons b bs =>
    rw [List.getLast?_cons_cons]
    cases hlast : (b :: bs).getLast? with
    | none =>
      rw [List.getLast?_eq_none_iff] at hlast
      cases hlast
    | some v => simp [hlast]

/-- Shape of the updated front: the kept points, the new right-edge point
`(x1, y0)`, then a tail `T` starting at row `y1` that is either the fresh
`(0, y1)` point (nothing survived below), the surviving end points led by an
exact-`y1` point, or a split point `(prevX, y1)` followed by the surviving
end points. -/
theorem newFront_decomp (front : List (ℕ × ℕ)) (hs : frontSorted front)
    (x1 y0 y1 i : ℕ) (hi : i < front.length)
    (hyi : (front.get ⟨i, hi⟩).2 = y0) (hy : y0 < y1) :
    ∃ T : List (ℕ × ℕ),
      newFront front x1 y0 y1 =
        front.filter (fun p => decide (p.2 < y0)) ++ ((x1, y0) :: T) ∧
      (T.headI).2 = y1 ∧ T ≠ [] ∧
      ((front.filter (fun p => decide (y1 ≤ p.2)) = [] ∧ T = [(0, y1)]) ∨
       (∃ e es, front.filter (fun p => decide (y1 ≤ p.2)) = e :: es ∧ e.2 = y1 ∧
          T = e :: es) ∨
       (∃ e es, front.filter (fun p => decide (y1 ≤ p.2)) = e :: es ∧ y1 < e.2 ∧
          T = ((((front.filter (fun p => decide (y0 ≤ p.2 ∧ p.2 < y1))).getLast?).getD
              (0, 0)).1, y1) :: e :: es)) := by
  have hmem : front.get ⟨i, hi⟩ ∈ front.filter (fun p => decide (y0 ≤ p.2 ∧ p.2 < y1)) := by
    rw [List.mem_filter]
    refine ⟨List.get_mem front i hi, ?_⟩
    simp only [List.get_eq_getElem] at hyi
    simp [hyi]
    omega
  set kept := front.filter (fun p => decide (p.2 < y0)) with hkept
  set mids := front.filter (fun p => decide (y0 ≤ p.2 ∧ p.2 < y1)) with hmids
  set endL := front.filter (fun p => decide (y1 ≤ p.2)) with hendL
  have hmidsne : mids ≠ [] := fun hnil => by
    rw [hnil] at hmem
    cases hmem
  have hsplit : front = kept ++ mids ++ endL :=
    sorted_three_split front hs y0 y1 (le_of_lt hy)
  -- the scanned prefix P = kept ++ mids is non-empty and below y1
  have hPne : kept ++ mids ≠ [] := by
    intro hnil
    rcases List.append_eq_nil.mp hnil with ⟨-, hm⟩
    exact hmidsne hm
  have hPlt : ∀ q ∈ kept ++ mids, q.2 < y1 := by
    intro q hq
    rcases List.mem_append.mp hq with hq | hq
    · have := (mem_keptY (hkept ▸ hq)).2
      omega
    · exact (mem_midsY (hmids ▸ hq)).2.2
  -- the running predecessor at the end of the prefix is the last of `mids`
  have hmStar : ((kept ++ mids).getLast?).getD (0, 0) = ((mids.getLast?).getD (0, 0)) := by
    rw [List.getLast?_append_of_ne_nil _ hmidsne]
  have hmStarMem : ((mids.getLast?).getD (0, 0)) ∈ mids := by
    cases hlast : mids.getLast? with
    | none =>
      rw [List.getLast?_eq_none_iff] at hlast
      exact absurd hlast hmidsne
    | some v =>
      simp only [Option.getD_some]
      exact List.mem_of_mem_getLast? hlast
  have hmStarY : y0 ≤ ((mids.getLast?).getD (0, 0)).2 :=
    (mem_midsY (hmids ▸ hmStarMem)).2.1
  -- evaluate midScan
  have hmid : midScan front y0 y1 = midScanAux y0 y1 endL ((mids.getLast?).getD (0, 0)) := by
    rcases hP : kept ++ mids with _ | ⟨p0, P'⟩
    · exact absurd hP hPne
    · have hfront2 : front = p0 :: (P' ++ endL) := by
        rw [hsplit, hP]
        rfl
      rw [hfront2]
      show midScanAux y0 y1 (P' ++ endL) p0 = _
      rw [midScanAux_append y0 y1 P' endL p0
        (fun q hq => hPlt q (by rw [hP]; exact List.mem_cons_of_mem _ hq))]
      rw [← getLast?_getD_cons P' p0 (0, 0), ← hP, hmStar]
  refine ?_
  rcases hE : endL with _ | ⟨e, es⟩
  · -- no surviving end points: the scan appends nothing, `(0, y1)` is added
    have hmid0 : midScan front y0 y1 = [] := by
      rw [hmid, hE]
      rfl
    refine ⟨[(0, y1)], ?_, rfl, by simp, Or.inl ⟨rfl, rfl⟩⟩
    rw [newFront]
    rw [← hkept, ← hendL, hmid0, hE]
    simp
  · have heY : y1 ≤ e.2 := (mem_endY (hendL ▸ (hE ▸ List.mem_cons_self e es))).2
    rcases eq_or_lt_of_le heY with heq | hlt
    · -- the first end point is exactly at y1: nothing appended
      have hmid0 : midScan front y0 y1 = [] := by
        rw [hmid, hE]
        show (if e.2 < y1 then _ else _) = _
        rw [if_neg (by omega)]
        show (if y1 < e.2 ∧ y0 ≤ _ then _ else _) = _
        rw [if_neg (by omega)]
      refine ⟨e :: es, ?_, by simpa using heq.symm, by simp,
        Or.inr (Or.inl ⟨e, es, rfl, heq.symm, rfl⟩)⟩
      rw [newFront, ← hkept, ← hendL, hmid0, hE]
      simp
    · -- the first end point is above y1: the split point is appended
      have hmid1 : midScan front y0 y1 =
          [((((mids.getLast?).getD (0, 0)).1), y1)] := by
        rw [hmid, hE]
        show (if e.2 < y1 then _ else _) = _
        rw [if_neg (by omega)]
        show (if y1 < e.2 ∧ y0 ≤ _ then _ else _) = _
        rw [if_pos ⟨hlt, hmStarY⟩]
      refine ⟨((((mids.getLast?).getD (0, 0)).1), y1) :: e :: es, ?_, by simp, by simp,
        Or.inr (Or.inr ⟨e, es, rfl, hlt, rfl⟩)⟩
      rw [newFront, ← hkept, ← hendL, hmid1, hE]
      simp

theorem headI_mem_self {α : Type} [Inhabited α] {l : List α} (h : l ≠ []) :
    l.headI ∈ l := by
  cases l with
  | nil => exact absurd rfl h
  | cons a t => simp

theorem mids_ne_nil (front : List (ℕ × ℕ)) {y0 y1 i : ℕ} (hi : i < front.length)
    (hyi : (front.get ⟨i, hi⟩).2 = y0) (hy : y0 < y1) :
    front.filter (fun p => decide (y0 ≤ p.2 ∧ p.2 < y1)) ≠ [] := by
  intro hnil
  have hmem : front.get ⟨i, hi⟩ ∈ front.filter (fun p => decide (y0 ≤ p.2 ∧ p.2 < y1)) := by
    rw [List.mem_filter]
    refine ⟨List.get_mem front i hi, ?_⟩
    simp only [List.get_eq_getElem] at hyi
    simp [hyi]
    omega
  rw [hnil] at hmem
  cases hmem

/-- The skyline of the updated front, by row zone: unchanged below `y0`,
equal to the new right edge `x1` in `[y0, y1)`, and at or above `y1` either
unchanged or (when nothing survived below the new bitmap) fully free. -/
theorem skyX_newFront_zones (front : List (ℕ × ℕ)) (hs : frontSorted front)
    (hne : front ≠ []) (hh0 : (front.headI).2 = 0)
    (x1 y0 y1 i : ℕ) (hi : i < front.length)
    (hyi : (front.get ⟨i, hi⟩).2 = y0) (hy : y0 < y1) (py : ℕ) :
    (py < y0 → skyX (newFront front x1 y0 y1) py = skyX front py) ∧
    (y0 ≤ py → py < y1 → skyX (newFront front x1 y0 y1) py = x1) ∧
    (y1 ≤ py → skyX (newFront front x1 y0 y1) py = skyX front py ∨
      (lastYD front < y1 ∧ skyX (newFront front x1 y0 y1) py = 0)) := by
  obtain ⟨T, hNF, hTh, hTne, hTcases⟩ := newFront_decomp front hs x1 y0 y1 i hi hyi hy
  have hmidsne := mids_ne_nil front hi hyi hy
  have hsplit := sorted_three_split front hs y0 y1 (le_of_lt hy)
  set kept := front.filter (fun p => decide (p.2 < y0)) with hkept
  set mids := front.filter (fun p => decide (y0 ≤ p.2 ∧ p.2 < y1)) with hmids
  set endL := front.filter (fun p => decide (y1 ≤ p.2)) with hendL
  have hkeptY : ∀ q ∈ kept, q.2 < y0 := fun q hq => (mem_keptY (hkept ▸ hq)).2
  have hmidsY : ∀ q ∈ mids, y0 ≤ q.2 ∧ q.2 < y1 := fun q hq => (mem_midsY (hmids ▸ hq)).2
  have hendY : ∀ q ∈ endL, y1 ≤ q.2 := fun q hq => (mem_endY (hendL ▸ hq)).2
  refine ⟨?_, ?_, ?_⟩
  · -- zone A: py < y0
    intro hpy
    have hkeptne : kept ≠ [] := by
      intro hnil
      rw [hnil, List.nil_append] at hsplit
      have hhm : front.headI ∈ front := headI_mem_self hne
      rw [hsplit] at hhm
      rcases List.mem_append.mp hhm with hm | hm
      · have := (hmidsY _ hm).1
        rw [← hsplit, hh0] at this
        omega
      · have := hendY _ hm
        rw [← hsplit, hh0] at this
        omega
    rw [hNF, skyX_append_lt kept _ py hkeptne (Or.inr (by simpa using by omega))]
    conv_rhs => rw [hsplit, List.append_assoc]
    rw [skyX_append_lt kept (mids ++ endL) py hkeptne ?_]
    rcases hME : mids ++ endL with _ | ⟨m, ms⟩
    · exact Or.inl rfl
    · refine Or.inr ?_
      have hm : m ∈ mids ++ endL := by
        rw [hME]
        exact List.mem_cons_self m ms
      rcases List.mem_append.mp hm with hmm | hmm
      · have := (hmidsY _ hmm).1
        simp only [hME, List.headI]
        omega
      · have := hendY _ hmm
        simp only [hME, List.headI]
        omega
  · -- zone B: y0 ≤ py < y1
    intro h0 h1
    rw [hNF, skyX_append_ge kept _ py (by simp)
      (fun q hq => le_of_lt (lt_of_lt_of_le (hkeptY q hq) h0)) (by simpa using h0)]
    rcases hT : T with _ | ⟨t, T'⟩
    · exact absurd hT hTne
    · have htY : t.2 = y1 := by
        rw [hT] at hTh
        simpa using hTh
      simp [skyX, htY, h1]
  · -- zone C: y1 ≤ py
    intro hpy
    have hLle : ∀ q ∈ kept ++ [(x1, y0)], q.2 ≤ py := by
      intro q hq
      rcases List.mem_append.mp hq with hm | hm
      · have := hkeptY q hm
        omega
      · simp at hm
        rw [hm]
        simp
        omega
    have hPMle : ∀ q ∈ kept ++ mids, q.2 ≤ py := by
      intro q hq
      rcases List.mem_append.mp hq with hm | hm
      · have := hkeptY q hm
        omega
      · have := (hmidsY q hm).2
        omega
    rcases hTcases with ⟨hEnil, hT⟩ | ⟨e, es, hE, heY, hT⟩ | ⟨e, es, hE, heY, hT⟩
    · -- nothing survived below: rows ≥ y1 are fully free
      refine Or.inr ⟨?_, ?_⟩
      · -- lastYD front < y1
        have hlast : front.getLast? = (kept ++ mids).getLast? := by
          conv_lhs => rw [hsplit]
          rw [hEnil, List.append_nil]
        cases hl : (kept ++ mids).getLast? with
        | none =>
          rw [List.getLast?_eq_none_iff] at hl
          rcases List.append_eq_nil.mp hl with ⟨-, hm⟩
          exact absurd hm hmidsne
        | some v =>
          have hvmem : v ∈ kept ++ mids := List.mem_of_mem_getLast? hl
          have hvlt : v.2 < y1 := by
            rcases List.mem_append.mp hvmem with hm | hm
            · have := hkeptY v hm
              omega
            · exact (hmidsY v hm).2
          rw [lastYD, hlast, hl]
          simpa using hvlt
      · rw [hNF, hT]
        have : kept ++ ((x1, y0) :: [(0, y1)]) = (kept ++ [(x1, y0)]) ++ [(0, y1)] := by
          simp
        rw [this, skyX_append_ge _ _ py (by simp) hLle (by simpa using hpy)]
        rfl
    · -- first surviving end point exactly at y1
      rw [hNF, hT]
      refine Or.inl ?_
      have h1 : kept ++ ((x1, y0) :: (e :: es)) = (kept ++ [(x1, y0)]) ++ (e :: es) := by
        simp
      have hL : skyX ((kept ++ [(x1, y0)]) ++ (e :: es)) py = skyX (e :: es) py :=
        skyX_append_ge _ _ py (by simp) hLle (by simp; omega)
      have hR : skyX ((kept ++ mids) ++ (e :: es)) py = skyX (e :: es) py :=
        skyX_append_ge _ _ py (by simp) hPMle (by simp; omega)
      rw [h1, hL]
      conv_rhs => rw [hsplit, hE]
      rw [hR]
    · -- first surviving end point above y1: a split point at y1 was added
      rw [hNF, hT]
      refine Or.inl ?_
      set mx := ((mids.getLast?).getD (0, 0)).1 with hmx
      have h1 : kept ++ ((x1, y0) :: ((mx, y1) :: e :: es)) =
          (kept ++ [(x1, y0)]) ++ ((mx, y1) :: e :: es) := by
        simp
      have hL : skyX ((kept ++ [(x1, y0)]) ++ ((mx, y1) :: e :: es)) py =
          skyX ((mx, y1) :: e :: es) py :=
        skyX_append_ge _ _ py (by simp) hLle (by simp; omega)
      rw [h1, hL]
      rcases lt_or_le py e.2 with hpe | hpe
      · -- inside the split segment [y1, e.2)
        have hLHS : skyX ((mx, y1) :: e :: es) py = mx := by
          simp [skyX, hpe]
        have hmidLast : (kept ++ mids).getLast? = mids.getLast? :=
          List.getLast?_append_of_ne_nil _ hmidsne
        have hRHS : skyX front py = mx := by
          conv_lhs => rw [hsplit, hE]
          rw [skyX_append_lt (kept ++ mids) (e :: es) py
            (fun hnil => hmidsne (List.append_eq_nil.mp hnil).2)
            (Or.inr (by simpa using hpe))]
          rw [skyX_all_le (kept ++ mids) py
            (fun hnil => hmidsne (List.append_eq_nil.mp hnil).2) hPMle]
          rw [hmidLast]
        rw [hLHS, hRHS]
      · -- at or below the first surviving end point
        have hLHS : skyX ((mx, y1) :: e :: es) py = skyX (e :: es) py := by
          have : ¬ py < e.2 := by omega
          simp [skyX, this]
        have hR : skyX ((kept ++ mids) ++ (e :: es)) py = skyX (e :: es) py :=
          skyX_append_ge _ _ py (by simp) hPMle (by simp; omega)
        rw [hLHS]
        conv_rhs => rw [hsplit, hE]
        rw [hR]

theorem lastYD_mem {l : List (ℕ × ℕ)} (h : l ≠ []) :
    ∃ v ∈ l, lastYD l = v.2 := by
  cases hl : l.getLast? with
  | none =>
    rw [List.getLast?_eq_none_iff] at hl
    exact absurd hl h
  | some v =>
    exact ⟨v, List.mem_of_mem_getLast? hl, by rw [lastYD, hl]; rfl⟩

/-- The last point of the updated front: row `y1` if no old point survived
at or above `y1`, otherwise the old last point. -/
theorem hlastCase (front : List (ℕ × ℕ)) (hs : frontSorted front)
    (x1 y0 y1 i : ℕ) (hi : i < front.length)
    (hyi : (front.get ⟨i, hi⟩).2 = y0) (hy : y0 < y1) :
    (lastYD front < y1 ∧ lastYD (newFront front x1 y0 y1) = y1) ∨
    (y1 ≤ lastYD front ∧ lastYD (newFront front x1 y0 y1) = lastYD front) := by
  obtain ⟨T, hNF, hTh, hTne, hTcases⟩ := newFront_decomp front hs x1 y0 y1 i hi hyi hy
  have hmidsne := mids_ne_nil front hi hyi hy
  have hsplit := sorted_three_split front hs y0 y1 (le_of_lt hy)
  set kept := front.filter (fun p => decide (p.2 < y0)) with hkept
  set mids := front.filter (fun p => decide (y0 ≤ p.2 ∧ p.2 < y1)) with hmids
  set endL := front.filter (fun p => decide (y1 ≤ p.2)) with hendL
  have hNFlast : lastYD (newFront front x1 y0 y1) = ((T.getLast?).getD (0, 0)).2 := by
    rw [hNF, lastYD]
    rw [List.getLast?_append_of_ne_nil _ (by simp)]
    rw [show ((x1, y0) :: T) = [(x1, y0)] ++ T from rfl,
      List.getLast?_append_of_ne_nil _ hTne]
  rcases hTcases with ⟨hEnil, hT⟩ | ⟨e, es, hE, heY, hT⟩ | ⟨e, es, hE, heY, hT⟩
  · refine Or.inl ⟨?_, by rw [hNFlast, hT]; rfl⟩
    have hlast : front.getLast? = (kept ++ mids).getLast? := by
      conv_lhs => rw [hsplit]
      rw [hEnil, List.append_nil]
    obtain ⟨v, hvmem, hveq⟩ := lastYD_mem (l := kept ++ mids)
      (fun hnil => hmidsne (List.append_eq_nil.mp hnil).2)
    have hvlt : v.2 < y1 := by
      rcases List.mem_append.mp hvmem with hm | hm
      · have := (mem_keptY (hkept ▸ hm)).2
        omega
      · exact (mem_midsY (hmids ▸ hm)).2.2
    rw [lastYD, hlast]
    rw [lastYD] at hveq
    rw [hveq]
    exact hvlt
  all_goals {
    have hEne : endL ≠ [] := by rw [hE]; simp
    have hfrontLast : lastYD front = lastYD endL := by
      conv_lhs => rw [lastYD, hsplit]
      rw [List.getLast?_append_of_ne_nil _ hEne]
      rfl
    have hTlast : (T.getLast?).getD (0, 0) = ((endL.getLast?).getD (0, 0)) := by
      rw [hT, hE]
      all_goals
        rw [show ((((mids.getLast?).getD (0, 0)).1, y1) :: e :: es) =
              [(((mids.getLast?).getD (0, 0)).1, y1)] ++ (e :: es) from rfl,
          List.getLast?_append_of_ne_nil _ (by simp)]
    obtain ⟨v, hvmem, hveq⟩ := lastYD_mem hEne
    have hvge : y1 ≤ v.2 := (mem_endY (hendL ▸ hvmem)).2
    refine Or.inr ⟨?_, ?_⟩
    · rw [hfrontLast, hveq]
      exact hvge
    · rw [hNFlast, hfrontLast, hTlast]
      rfl }

/-- The updated front is again a sorted skyline starting at row 0, and its
last point is no higher than before and at or below `y1`. -/
theorem newFront_inv (front : List (ℕ × ℕ)) (hs : frontSorted front)
    (hne : front ≠ []) (hh0 : (front.headI).2 = 0)
    (x1 y0 y1 i : ℕ) (hi : i < front.length)
    (hyi : (front.get ⟨i, hi⟩).2 = y0) (hy : y0 < y1) :
    newFront front x1 y0 y1 ≠ [] ∧
    frontSorted (newFront front x1 y0 y1) ∧
    ((newFront front x1 y0 y1).headI).2 = 0 ∧
    lastYD front ≤ lastYD (newFront front x1 y0 y1) ∧
    y1 ≤ lastYD (newFront front x1 y0 y1) := by
  obtain ⟨T, hNF, hTh, hTne, hTcases⟩ := newFront_decomp front hs x1 y0 y1 i hi hyi hy
  have hmidsne := mids_ne_nil front hi hyi hy
  have hsplit := sorted_three_split front hs y0 y1 (le_of_lt hy)
  set kept := front.filter (fun p => decide (p.2 < y0)) with hkept
  set mids := front.filter (fun p => decide (y0 ≤ p.2 ∧ p.2 < y1)) with hmids
  set endL := front.filter (fun p => decide (y1 ≤ p.2)) with hendL
  have hkeptY : ∀ q ∈ kept, q.2 < y0 := fun q hq => (mem_keptY (hkept ▸ hq)).2
  have hmidsY : ∀ q ∈ mids, y0 ≤ q.2 ∧ q.2 < y1 := fun q hq => (mem_midsY (hmids ▸ hq)).2
  have hendY : ∀ q ∈ endL, y1 ≤ q.2 := fun q hq => (mem_endY (hendL ▸ hq)).2
  have hkeptS : frontSorted kept := List.Pairwise.filter _ hs
  have hendS : frontSorted endL := List.Pairwise.filter _ hs
  have hTY : ∀ q ∈ T, y1 ≤ q.2 := by
    intro q hq
    rcases hTcases with ⟨-, hT⟩ | ⟨e, es, hE, heY, hT⟩ | ⟨e, es, hE, heY, hT⟩
    · rw [hT] at hq
      simp at hq
      simp [hq]
    · rw [hT] at hq
      exact hendY q (hE ▸ hq)
    · rw [hT] at hq
      rcases List.mem_cons.mp hq with rfl | hq2
      · simp
      · exact hendY q (hE ▸ hq2)
  have hTS : frontSorted T := by
    rcases hTcases with ⟨-, hT⟩ | ⟨e, es, hE, heY, hT⟩ | ⟨e, es, hE, heY, hT⟩
    · rw [hT]
      simp [frontSorted]
    · rw [hT, ← hE]
      exact hendS
    · rw [hT]
      rw [frontSorted, List.pairwise_cons]
      refine ⟨?_, hE ▸ hendS⟩
      intro q hq
      rcases List.mem_cons.mp hq with rfl | hq2
      · simpa using heY
      · have heS := hendS
        rw [hE, frontSorted, List.pairwise_cons] at heS
        have h2 := heS.1 q hq2
        simp
        omega
  refine ⟨by rw [hNF]; simp, ?_, ?_, ?_, ?_⟩
  · -- sortedness
    rw [hNF, frontSorted, List.pairwise_append]
    refine ⟨hkeptS, ?_, ?_⟩
    · rw [List.pairwise_cons]
      exact ⟨fun q hq => by
          have := hTY q hq
          simp
          omega,
        hTS⟩
    · intro p hp q hq
      have hpk := hkeptY p hp
      rcases List.mem_cons.mp hq with rfl | hq2
      · simpa using hpk
      · have := hTY q hq2
        simp
        omega
  · -- head at row 0
    rcases hK : kept with _ | ⟨k0, ks⟩
    · have hfh : front.headI = (mids ++ endL).headI := by
        conv_lhs => rw [hsplit, hK, List.nil_append]
      have hy00 : y0 = 0 := by
        have hhm : front.headI ∈ front := headI_mem_self hne
        conv at hhm => rw [hsplit, hK, List.nil_append]
        rcases List.mem_append.mp hhm with hm | hm
        · have h1 := (hmidsY _ hm).1
          rw [← hfh, hh0] at h1
          omega
        · have h1 := hendY _ hm
          rw [← hfh, hh0] at h1
          omega
      rw [hNF, hK]
      simpa using hy00
    · rw [hNF, hK]
      have hfh : front.headI = k0 := by
        conv_lhs => rw [hsplit, hK]
        rfl
      show k0.2 = 0
      rw [← hfh]
      exact hh0
  · -- last point not lowered
    rcases hlastCase front hs x1 y0 y1 i hi hyi hy with ⟨h1, h2⟩ | ⟨h1, h2⟩ <;> omega
  · rcases hlastCase front hs x1 y0 y1 i hi hyi hy with ⟨h1, h2⟩ | ⟨h1, h2⟩ <;> omega

/-- Specification of Python `max` via the fold. -/
theorem foldl_max_spec : ∀ (xs : List ℕ) (a : ℕ),
    (xs.foldl max a = a ∨ xs.foldl max a ∈ xs) ∧ a ≤ xs.foldl max a ∧
    ∀ x ∈ xs, x ≤ xs.foldl max a
  | [], a => ⟨Or.inl rfl, le_refl _, by simp⟩
  | x :: xs, a => by
    obtain ⟨hmem, hle, hub⟩ := foldl_max_spec xs (max a x)
    rw [List.foldl_cons]
    refine ⟨?_, le_trans (le_max_left a x) hle, ?_⟩
    · rcases hmem with heq | hmem
      · rcases max_cases a x with ⟨hm, -⟩ | ⟨hm, -⟩
        · exact Or.inl (by rw [heq, hm])
        · exact Or.inr (by rw [heq, hm]; simp)
      · exact Or.inr (List.mem_cons_of_mem _ hmem)
    · intro v hv
      rcases List.mem_cons.mp hv with rfl | hv2
      · exact le_trans (le_max_right a v) hle
      · exact hub v hv2

theorem pyMax?_spec {l : List ℕ} {m : ℕ} (h : pyMax? l = some m) :
    ∀ x ∈ l, x ≤ m := by
  cases l with
  | nil => cases h
  | cons x xs =>
    rw [pyMax?] at h
    cases h
    intro v hv
    obtain ⟨-, hle, hub⟩ := foldl_max_spec xs x
    rcases List.mem_cons.mp hv with rfl | hv2
    · exact hle
    · exact hub v hv2

/-- Extraction from the waste-minimizing fold: any selected position was
produced by some candidate. -/
theorem selectFold_mem {a : Atlas} {w h : ℕ} :
    ∀ (l : List ℕ) (acc : Option (ℕ × ℕ) × ℤ) (res : Option (ℕ × ℕ) × ℤ),
    l.foldlM
      (fun (best : Option (ℕ × ℕ) × ℤ) i => do
        match ← evalCand a w h i with
        | none => pure best
        | some (x, y, waste) =>
          pure (if waste < best.2 then (some (x, y), waste) else best))
      acc = .ok res →
    ∀ v, res.1 = some v →
      acc.1 = some v ∨ ∃ i ∈ l, ∃ wst, evalCand a w h i = .ok (some (v.1, v.2, wst))
  | [], acc, res, hfold, v, hv => by
    cases hfold
    exact Or.inl hv
  | i :: is, acc, res, hfold, v, hv => by
    rw [List.foldlM_cons] at hfold
    cases hcand : evalCand a w h i with
    | error e =>
      rw [hcand] at hfold
      cases hfold
    | ok o =>
      rw [hcand] at hfold
      cases o with
      | none =>
        have := selectFold_mem is acc res hfold v hv
        rcases this with h1 | ⟨j, hj, wst, hw⟩
        · exact Or.inl h1
        · exact Or.inr ⟨j, List.mem_cons_of_mem _ hj, wst, hw⟩
      | some t =>
        obtain ⟨x, y, wst⟩ := t
        have := selectFold_mem is _ res hfold v hv
        rcases this with h1 | ⟨j, hj, wst', hw⟩
        · by_cases hcmp : wst < acc.2
          · rw [if_pos hcmp] at h1
            simp only at h1
            cases h1
            exact Or.inr ⟨i, by simp, wst, hcand⟩
          · rw [if_neg hcmp] at h1
            exact Or.inl h1
        · exact Or.inr ⟨j, List.mem_cons_of_mem _ hj, wst', hw⟩

/-- A successful candidate evaluation: the row is the candidate point's, and
the chosen `x` dominates every considered front point. -/
theorem evalCand_ok_some {a : Atlas} {w h i : ℕ} {x y : ℕ} {wst : ℤ}
    (hc : evalCand a w h i = .ok (some (x, y, wst))) :
    y = (a.front.getD i (0, 0)).2 ∧
    ∀ j ∈ considerIdx a.front i ((a.front.getD i (0, 0)).2 + h),
      (a.front.getD j (0, 0)).1 ≤ x := by
  rw [evalCand] at hc
  split at hc
  · cases hc
  · rename_i m hmax
    dsimp only [] at hc
    split at hc
    · cases hc
    · simp only [Except.ok.injEq, Option.some.injEq, Prod.mk.injEq] at hc
      obtain ⟨hxm, hy, -⟩ := hc
      subst hxm
      refine ⟨hy.symm, ?_⟩
      intro j hj
      exact pyMax?_spec hmax _ (List.mem_map_of_mem _ hj)

/-- A successful placement has positive height (with `h = 0` the very first
candidate's `consider` list is empty and `max()` raises). -/
theorem selectBest_h_pos {a : Atlas} (hs : frontSorted a.front) (hne : a.front ≠ [])
    {w h x0 y0 : ℕ} (hsel : selectBest a w h = .ok (some (x0, y0))) : 1 ≤ h := by
  by_contra hh
  have h0 : h = 0 := by omega
  subst h0
  have hcons : considerIdx a.front 0 ((a.front.getD 0 (0, 0)).2 + 0) = [] := by
    rw [considerIdx, List.filter_eq_nil_iff]
    intro j hj
    rw [List.mem_range'_1] at hj
    simp only [decide_eq_true_eq, not_lt]
    rcases Nat.eq_zero_or_pos j with rfl | hjpos
    · omega
    · have hjlt : j < a.front.length := by omega
      have h0lt : 0 < a.front.length := by omega
      have := (List.pairwise_iff_get.mp hs) ⟨0, h0lt⟩ ⟨j, hjlt⟩ hjpos
      rw [List.getD_eq_getElem _ _ hjlt, List.getD_eq_getElem _ _ h0lt]
      simp only [List.get_eq_getElem] at this
      omega
  have hcand : evalCand a w 0 0 = .error .emptyMax := by
    rw [evalCand, hcons]
    rfl
  obtain ⟨m, hm⟩ : ∃ m, a.front.length = m + 1 := by
    cases hlen : a.front.length with
    | zero =>
      rw [List.length_eq_zero] at hlen
      exact absurd hlen hne
    | succ m => exact ⟨m, rfl⟩
  rw [selectBest, hm, List.range_succ_eq_map, List.foldlM_cons, hcand] at hsel
  cases hsel

/-- Elimination of a successful `put`: the returned rectangle and the
updated front come from a selected position. -/
theorem putA_ok_elim {a : Atlas} {w h : ℕ} {R : Rect} {a' : Atlas}
    (hput : putA a w h = (.ok R, a')) :
    ∃ x0 y0, selectBest a w h = .ok (some (x0, y0)) ∧
      R = ⟨x0, y0, x0 + w, y0 + h⟩ ∧
      a'.front = newFront a.front (x0 + w) y0 (y0 + h) := by
  rw [putA] at hput
  split at hput
  · rename_i e hsel
    rw [Prod.mk.injEq] at hput
    cases hput.1
  · rename_i hsel
    rw [Prod.mk.injEq] at hput
    cases hput.1
  · rename_i x0 y0 hsel
    rw [Prod.mk.injEq] at hput
    obtain ⟨hR, hA⟩ := hput
    cases hR
    exact ⟨x0, y0, hsel, rfl, by rw [← hA]⟩

/-- Semantic content of a successful selection: the chosen row is some front
point's, and the chosen column dominates all considered front points. -/
theorem selectBest_ok_mem {a : Atlas} {w h : ℕ} {x0 y0 : ℕ}
    (hsel : selectBest a w h = .ok (some (x0, y0))) :
    ∃ i, i < a.front.length ∧ (a.front.getD i (0, 0)).2 = y0 ∧
      ∀ j ∈ considerIdx a.front i (y0 + h), (a.front.getD j (0, 0)).1 ≤ x0 := by
  rw [selectBest] at hsel
  cases hfold : (List.range a.front.length).foldlM
      (fun (best : Option (ℕ × ℕ) × ℤ) i => do
        match ← evalCand a w h i with
        | none => pure best
        | some (x, y, waste) =>
          pure (if waste < best.2 then (some (x, y), waste) else best))
      ((none : Option (ℕ × ℕ)), (999999999 : ℤ)) with
  | error e =>
    rw [hfold] at hsel
    cases hsel
  | ok res =>
    rw [hfold] at hsel
    have hsel2 : res.1 = some (x0, y0) := Except.ok.inj hsel
    have := selectFold_mem (List.range a.front.length) _ res hfold (x0, y0) hsel2
    rcases this with h1 | ⟨i, hi, wst, hcand⟩
    · cases h1
    · obtain ⟨hy, hub⟩ := evalCand_ok_some hcand
      have hy' : y0 = (a.front.getD i (0, 0)).2 := hy
      refine ⟨i, List.mem_range.mp hi, hy'.symm, ?_⟩
      rw [hy']
      exact hub

/-- Every row of the new rectangle is free in the old skyline up to the
chosen column. -/
theorem skyX_le_of_cand {front : List (ℕ × ℕ)} (hs : frontSorted front)
    (hne : front ≠ []) (hh0 : (front.headI).2 = 0)
    {i h x0 y0 : ℕ} (hi : i < front.length) (hyi : (front.getD i (0, 0)).2 = y0)
    (hub : ∀ j ∈ considerIdx front i (y0 + h), (front.getD j (0, 0)).1 ≤ x0)
    {py : ℕ} (h1 : y0 ≤ py) (h2 : py < y0 + h) : skyX front py ≤ x0 := by
  obtain ⟨p, hpmem, hple, hpsky, hpmax⟩ := skyX_spec front py hs hne (by
    rw [hh0]
    exact Nat.zero_le _)
  obtain ⟨⟨j, hj⟩, hget⟩ := List.mem_iff_get.mp hpmem
  have hij : i ≤ j := by
    by_contra hlt
    have hji : j < i := by omega
    have := (List.pairwise_iff_get.mp hs) ⟨j, hj⟩ ⟨i, hi⟩ hji
    rw [hget] at this
    have hyile : (front.get ⟨i, hi⟩).2 ≤ p.2 := by
      apply hpmax
      · exact List.get_mem front i hi
      · rw [List.getD_eq_getElem _ _ hi] at hyi
        simp only [List.get_eq_getElem]
        omega
    omega
  have hjmem : j ∈ considerIdx front i (y0 + h) := by
    rw [considerIdx, List.mem_filter]
    constructor
    · rw [List.mem_range'_1]
      omega
    · rw [List.getD_eq_getElem _ _ hj]
      simp only [decide_eq_true_eq]
      show (front.get ⟨j, hj⟩).2 < y0 + h
      rw [hget]
      omega
  have hx := hub j hjmem
  rw [List.getD_eq_getElem _ _ hj] at hx
  rw [hpsky, ← hget]
  exact hx

/-- **Preservation.**  A successful `put` keeps the atlas invariant, records
the new rectangle, and the new rectangle is disjoint from all previously
placed ones. -/
theorem putA_preserves {a : Atlas} {rects : List Rect} {w h : ℕ} {R : Rect} {a' : Atlas}
    (hinv : AtlasInv a rects) (hput : putA a w h = (.ok R, a')) :
    AtlasInv a' (rects ++ [R]) ∧ ∀ r ∈ rects, rectDisjoint r R := by
  obtain ⟨x0, y0, hsel, hR, hF⟩ := putA_ok_elim hput
  have hhpos : 1 ≤ h := selectBest_h_pos hinv.sorted hinv.ne hsel
  obtain ⟨i, hi, hyi, hub⟩ := selectBest_ok_mem hsel
  have hy01 : y0 < y0 + h := by omega
  have hyig : (a.front.get ⟨i, hi⟩).2 = y0 := by
    rw [List.get_eq_getElem, ← List.getD_eq_getElem a.front (0, 0) hi]
    exact hyi
  have hcov : ∀ py, y0 ≤ py → py < y0 + h → skyX a.front py ≤ x0 :=
    fun py h1 h2 => skyX_le_of_cand hinv.sorted hinv.ne hinv.head0 hi hyi hub h1 h2
  have hzones := fun py => skyX_newFront_zones a.front hinv.sorted hinv.ne hinv.head0
    (x0 + w) y0 (y0 + h) i hi hyig hy01 py
  obtain ⟨hNFne, hNFsorted, hNFhead, hNFle, hNFy1⟩ :=
    newFront_inv a.front hinv.sorted hinv.ne hinv.head0 (x0 + w) y0 (y0 + h) i hi hyig hy01
  subst hR
  -- the new rectangle sits inside the old free region
  have hRfree : ∀ px py, inRect ⟨x0, y0, x0 + w, y0 + h⟩ px py → skyX a.front py ≤ px := by
    intro px py hpr
    obtain ⟨h1, h2, h3, h4⟩ := hpr
    exact le_trans (hcov py h3 h4) h1
  have hRdisj : ∀ r ∈ rects, rectDisjoint r ⟨x0, y0, x0 + w, y0 + h⟩ := by
    intro r hr px py ⟨hpr, hpR⟩
    exact hinv.freeDisj r hr px py (hRfree px py hpR) hpr
  refine ⟨⟨by rw [hF]; exact hNFne, by rw [hF]; exact hNFsorted, by rw [hF]; exact hNFhead,
    ?_, ?_⟩, hRdisj⟩
  · -- every rectangle (old and new) avoids the new free region
    intro r hr px py hfree
    rw [hF] at hfree
    rcases List.mem_append.mp hr with hrold | hrnew
    · -- old rectangles
      intro hpr
      rcases Nat.lt_or_ge py y0 with hA | hge
      · exact hinv.freeDisj r hrold px py (by rw [← (hzones py).1 hA]; exact hfree) hpr
      · rcases Nat.lt_or_ge py (y0 + h) with hB | hC
        · have hsky : skyX (newFront a.front (x0 + w) y0 (y0 + h)) py = x0 + w :=
            (hzones py).2.1 hge hB
          have : skyX a.front py ≤ px := by
            have := hcov py hge hB
            omega
          exact hinv.freeDisj r hrold px py this hpr
        · rcases (hzones py).2.2 hC with heq | ⟨hlow, hzero⟩
          · exact hinv.freeDisj r hrold px py (by rw [← heq]; exact hfree) hpr
          · have hry : r.y1 ≤ lastYD a.front := hinv.below r hrold
            obtain ⟨-, -, -, h4⟩ := hpr
            omega
    · -- the new rectangle: its rows satisfy y0 ≤ py < y0 + h, where the
      -- new skyline is exactly x0 + w, beyond the rectangle's right edge
      simp only [List.mem_singleton] at hrnew
      subst hrnew
      intro hpr
      dsimp only [inRect] at hpr
      obtain ⟨h1, h2, h3, h4⟩ := hpr
      have hsky : skyX (newFront a.front (x0 + w) y0 (y0 + h)) py = x0 + w :=
        (hzones py).2.1 h3 h4
      omega
  · -- no rectangle reaches below the new last front point
    intro r hr
    rw [hF]
    rcases List.mem_append.mp hr with hrold | hrnew
    · have := hinv.below r hrold
      omega
    · simp only [List.mem_singleton] at hrnew
      subst hrnew
      exact hNFy1

/-- The freshly constructed atlas satisfies the invariant with no placed
rectangles. -/
theorem mkAtlas_inv (initW initH maxsize : ℕ) :
    AtlasInv (mkAtlas initW initH maxsize) [] := by
  refine ⟨by simp [mkAtlas], ?_, rfl, by simp, by simp⟩
  simp [mkAtlas, frontSorted]

/-- Invariant and pairwise disjointness along a whole run of `put` calls. -/
theorem runPuts_inv : ∀ (imgs : List (ℕ × ℕ)) (a : Atlas) (rects0 : List Rect),
    AtlasInv a rects0 → rects0.Pairwise rectDisjoint →
    ∀ {rs : List Rect} {af : Atlas}, runPuts a imgs = (.ok rs, af) →
    AtlasInv af (rects0 ++ rs) ∧ (rects0 ++ rs).Pairwise rectDisjoint
  | [], a, rects0, hinv, hpw, rs, af, hrun => by
    rw [runPuts] at hrun
    rw [Prod.mk.injEq] at hrun
    obtain ⟨h1, h2⟩ := hrun
    cases h1
    cases h2
    simpa using ⟨hinv, hpw⟩
  | d :: ds, a, rects0, hinv, hpw, rs, af, hrun => by
    rw [runPuts] at hrun
    split at hrun
    · rename_i r a1 hput
      split at hrun
      · rename_i rs1 af1 hrun1
        rw [Prod.mk.injEq] at hrun
        obtain ⟨h1, h2⟩ := hrun
        cases h1
        cases h2
        obtain ⟨hinv1, hdisj1⟩ := putA_preserves hinv hput
        have hpw1 : (rects0 ++ [r]).Pairwise rectDisjoint := by
          rw [List.pairwise_append]
          refine ⟨hpw, by simp, ?_⟩
          intro r1 hr1 r2 hr2
          simp only [List.mem_singleton] at hr2
          subst hr2
          exact hdisj1 r1 hr1
        have := runPuts_inv ds a1 (rects0 ++ [r]) hinv1 hpw1 hrun1
        rw [List.append_assoc] at this
        simpa using this
      · rename_i e af1 hrun1
        rw [Prod.mk.injEq] at hrun
        cases hrun.1
    · rename_i e a1 hput
      rw [Prod.mk.injEq] at hrun
      cases hrun.1

/-- **C1 (confirmed).**  For every sequence of `put()` calls on a fresh
atlas that all succeed, the returned rectangles are pairwise
non-overlapping. -/
theorem atlas_no_overlap (initW initH maxsize : ℕ) (imgs : List (ℕ × ℕ))
    (rects : List Rect) (af : Atlas)
    (h : runPuts (mkAtlas initW initH maxsize) imgs = (.ok rects, af)) :
    rects.Pairwise rectDisjoint := by
  have := runPuts_inv imgs (mkAtlas initW initH maxsize) []
    (mkAtlas_inv initW initH maxsize) (by simp) h
  simpa using this.2

/-- **C1, witness**: two 64x64 bitmaps into a fresh 512x512 atlas land at
`(0,0,64,64)` and `(64,0,128,64)` — non-overlapping (the spec's own
scenario). -/
theorem atlas_no_overlap_witness :
    runPuts (mkAtlas 512 512 1024) [(64, 64), (64, 64)] =
      (.ok [⟨0, 0, 64, 64⟩, ⟨64, 0, 128, 64⟩],
        { front := [(128, 0), (0, 64)], imgW := 512, imgH := 512, maxsize := 1024 }) ∧
    ([⟨0, 0, 64, 64⟩, ⟨64, 0, 128, 64⟩] : List Rect).Pairwise rectDisjoint :=
  ⟨by decide, atlas_no_overlap 512 512 1024 [(64, 64), (64, 64)]
    [⟨0, 0, 64, 64⟩, ⟨64, 0, 128, 64⟩]
    { front := [(128, 0), (0, 64)], imgW := 512, imgH := 512, maxsize := 1024 }
    (by decide)⟩

/-- **C7 (confirmed).**  The front list is always sorted by `yStart` in
ascending order (in fact strictly) with its first entry at `yStart = 0`:
this holds for a freshly constructed atlas and is preserved by every
successful `put()`; strict sortedness implies the claimed ascending order. -/
theorem atlas_front_sorted :
    (∀ initW initH maxsize : ℕ,
      (mkAtlas initW initH maxsize).front ≠ [] ∧
      frontSorted (mkAtlas initW initH maxsize).front ∧
      ((mkAtlas initW initH maxsize).front.headI).2 = 0) ∧
    (∀ (a : Atlas) (w h : ℕ) (R : Rect) (a' : Atlas),
      a.front ≠ [] → frontSorted a.front → (a.front.headI).2 = 0 →
      putA a w h = (.ok R, a') →
      a'.front ≠ [] ∧ frontSorted a'.front ∧ ((a'.front.headI).2 = 0)) ∧
    (∀ l : List (ℕ × ℕ), frontSorted l → l.Pairwise (fun p q => p.2 ≤ q.2)) := by
  refine ⟨?_, ?_, ?_⟩
  · intro initW initH maxsize
    exact ⟨by simp [mkAtlas], by simp [mkAtlas, frontSorted], rfl⟩
  · intro a w h R a' hne hs hh0 hput
    obtain ⟨x0, y0, hsel, hR, hF⟩ := putA_ok_elim hput
    have hhpos : 1 ≤ h := selectBest_h_pos hs hne hsel
    obtain ⟨i, hi, hyi, hub⟩ := selectBest_ok_mem hsel
    have hyig : (a.front.get ⟨i, hi⟩).2 = y0 := by
      rw [List.get_eq_getElem, ← List.getD_eq_getElem a.front (0, 0) hi]
      exact hyi
    obtain ⟨hNFne, hNFsorted, hNFhead, -, -⟩ :=
      newFront_inv a.front hs hne hh0 (x0 + w) y0 (y0 + h) i hi hyig (by omega)
    rw [hF]
    exact ⟨hNFne, hNFsorted, hNFhead⟩
  · intro l hs
    exact hs.imp le_of_lt

/-- The atlas state after one 64x64 `put` into a fresh 512x512 atlas. -/
def witAtlas7 : Atlas :=
  { front := [(64, 0), (0, 64)], imgW := 512, imgH := 512, maxsize := 1024 }

/-- **C7, witness**: preservation applied to a concrete successful `put`. -/
theorem atlas_front_sorted_witness :
    (mkAtlas 512 512 1024).front ≠ [] ∧
    frontSorted (mkAtlas 512 512 1024).front ∧
    (((mkAtlas 512 512 1024).front.headI).2 = 0) ∧
    witAtlas7.front ≠ [] ∧ frontSorted witAtlas7.front ∧
    ((witAtlas7.front.headI).2 = 0) := by
  obtain ⟨hfresh, hstep, -⟩ := atlas_front_sorted
  obtain ⟨h1, h2, h3⟩ := hfresh 512 512 1024
  obtain ⟨h4, h5, h6⟩ := hstep (mkAtlas 512 512 1024) 64 64 ⟨0, 0, 64, 64⟩
    witAtlas7 h1 h2 h3 (by decide)
  exact ⟨h1, h2, h3, h4, h5, h6⟩

/-! ## Claim C6: `fit_text_in_box` convergence -/

/-- The epilogue of the `wrap_text` scan (the `i ≥ len(text)` case) always
yields at least one line: the `else []` branch is unreachable, since its
guards force `end > start` and `¬ end > start` simultaneously. -/
theorem wrapAux_epilogue_ne_nil (f : Font) (W size : ℚ) (text : List ℕ)
    (i start e : ℕ) (last : List ℕ × ℚ) (hge : ¬ i < text.length) :
    wrapAux f W size text i start e last ≠ [] := by
  rw [wrapAux, dif_neg hge]
  dsimp only []
  split
  · simp
  · split
    · simp
    · rename_i h1 h2
      exact absurd (Or.inr h2) h1

/-- `wrap_text`'s scan recursion never returns the empty list. -/
theorem wrapAux_ne_nil (f : Font) (W size : ℚ) (text : List ℕ) (n : ℕ) :
    ∀ (i start e : ℕ) (last : List ℕ × ℚ), text.length - i ≤ n →
      wrapAux f W size text i start e last ≠ [] := by
  induction n with
  | zero =>
    intro i start e last hn
    exact wrapAux_epilogue_ne_nil f W size text i start e last (by omega)
  | succ m ih =>
    intro i start e last hn
    by_cases hlt : i < text.length
    · rw [wrapAux, dif_pos hlt]
      have hrec : ∀ (s2 e2 : ℕ) (l2 : List ℕ × ℚ),
          wrapAux f W size text (i + 1) s2 e2 l2 ≠ [] := fun s2 e2 l2 =>
        ih (i + 1) s2 e2 l2 (by omega)
      dsimp only []
      split
      · simp
      · split
        · exact hrec _ _ _
        · split
          · exact hrec _ _ _
          · split
            · simp
            · split
              · simp
              · exact hrec _ _ _
    · exact wrapAux_epilogue_ne_nil f W size text i start e last hlt

/-- `wrap_text` always yields at least one `(line, width)` pair. -/
theorem wrapText_ne_nil (f : Font) (W size : ℚ) (text : List ℕ) :
    wrapText f W size text ≠ [] :=
  wrapAux_ne_nil f W size text text.length 0 0 0 ([], 0) (by omega)

/-- Fuel sufficiency for the shrink loop: once the fuel exceeds
`size - msz`, the loop reaches its exit condition (each iteration either
drops the size by at least 1 or clamps it to `msz`, which exits next). -/
theorem fitLoop_isSome (f : Font) (sx sy : ℚ) (text : List ℕ) (lsp msz : ℚ) :
    ∀ (n : ℕ) (size : ℚ), size ≤ msz + n →
      (fitLoop f sx sy text lsp msz size (n + 1)).isSome := by
  intro n
  induction n with
  | zero =>
    intro size hsz
    have h0 : size ≤ msz := by simpa using hsz
    rw [fitLoop]
    rw [if_pos (Or.inl h0)]
    rfl
  | succ m ih =>
    intro size hsz
    rw [fitLoop]
    split
    · rfl
    · apply ih
      have e1 : (1.0 : ℚ) = 1 := by norm_num
      have h1 : min (size * 0.9) (size - 1.0) ≤ size - 1.0 := min_le_right _ _
      have h2 : size - 1.0 ≤ msz + (m : ℚ) := by
        rw [e1]
        push_cast at hsz
        linarith
      have h3 : msz ≤ msz + (m : ℚ) := by
        have : (0 : ℚ) ≤ (m : ℚ) := Nat.cast_nonneg m
        linarith
      exact max_le (le_trans h1 h2) h3

/-- The fuel `fit_text_in_box` hands to the loop is sufficient. -/
theorem fitTextInBox_fuel (initSize msz : ℚ) :
    initSize ≤ msz + ((⌈initSize - msz⌉.toNat : ℕ) : ℚ) := by
  rcases le_or_lt initSize msz with h | h
  · have h0 : (0 : ℚ) ≤ ((⌈initSize - msz⌉.toNat : ℕ) : ℚ) := Nat.cast_nonneg _
    linarith
  · have h1 : initSize - msz ≤ (⌈initSize - msz⌉ : ℚ) := Int.le_ceil _
    have h2 : (0 : ℤ) ≤ ⌈initSize - msz⌉ := Int.ceil_nonneg (by linarith)
    have h3 := congrArg (fun z : ℤ => (z : ℚ)) (Int.toNat_of_nonneg h2)
    push_cast at h3
    linarith [h3 ▸ h1]

/-- Whatever the loop returns, the lines come from `wrap_text` at the
returned size, the width/height are the measured block dimensions at that
size, and the exit condition holds. -/
theorem fitLoop_ok (f : Font) (sx sy : ℚ) (text : List ℕ) (lsp msz : ℚ) :
    ∀ (fuel : ℕ) (size0 size : ℚ) (lines : List (List ℕ × ℚ)) (width height : ℚ),
      fitLoop f sx sy text lsp msz size0 fuel = some (size, lines, width, height) →
      lines = wrapText f sx size text ∧
      width = linesWidth lines ∧
      height = f.lineHeight * size * lsp * ((lines.length : ℚ) - 1) + f.maxHeight * size ∧
      (size ≤ msz ∨ (width ≤ sx ∧ height ≤ sy)) := by
  intro fuel
  induction fuel with
  | zero =>
    intro size0 size lines width height h
    exact absurd h (by rw [fitLoop]; simp)
  | succ m ih =>
    intro size0 size lines width height h
    rw [fitLoop] at h
    split at h
    · rename_i hcond
      simp only [Option.some.injEq, Prod.mk.injEq] at h
      obtain ⟨rfl, rfl, rfl, rfl⟩ := h
      exact ⟨rfl, rfl, rfl, hcond⟩
    · exact ih _ _ _ _ _ h

/-- The layout loop reproduces its input lines: each entry's `line` and
horizontal extent `x1 - x0` are exactly the wrapped `(line, width)` pair. -/
theorem fitLayout_map (x0R x1R lineH lineDy size : ℚ) (halign : ℕ) :
    ∀ (lines : List (List ℕ × ℚ)) (y : ℚ),
      (fitLayout x0R x1R lineH lineDy size halign lines y).map
        (fun en => (en.line, en.x1 - en.x0)) = lines
  | [], _ => rfl
  | (line, width) :: rest, y => by
    rw [fitLayout]
    rw [List.map_cons,
      fitLayout_map x0R x1R lineH lineDy size halign rest (y + lineDy)]
    simp only [add_sub_cancel_left]

/-- Every entry produced by the layout loop carries the final size. -/
theorem fitLayout_size (x0R x1R lineH lineDy size : ℚ) (halign : ℕ) :
    ∀ (lines : List (List ℕ × ℚ)) (y : ℚ),
      ∀ en ∈ fitLayout x0R x1R lineH lineDy size halign lines y, en.size = size
  | [], _ => by
    intro en h
    exact absurd h (by rw [fitLayout]; simp)
  | (line, width) :: rest, y => by
    intro en h
    rw [fitLayout] at h
    rcases List.mem_cons.mp h with rfl | h2
    · rfl
    · exact fitLayout_size x0R x1R lineH lineDy size halign rest (y + lineDy) en h2

/-- The layout loop is non-empty on non-empty input. -/
theorem fitLayout_ne_nil (x0R x1R lineH lineDy size : ℚ) (halign : ℕ)
    (lines : List (List ℕ × ℚ)) (y : ℚ) (h : lines ≠ []) :
    fitLayout x0R x1R lineH lineDy size halign lines y ≠ [] := by
  match lines, h with
  | (line, width) :: rest, _ =>
    rw [fitLayout]
    simp

/-- **C6 (confirmed).**  For every box, initial size, text, alignment and
line spacing, `fit_text_in_box` with `min_size = 6` terminates (the loop's
fuel suffices) and returns a non-empty list of line placements; there is a
final `size` such that the entries' lines and widths are exactly the
`wrap_text` output at that size, every entry carries that size, and the
loop stopped because `size ≤ 6` or because the wrapped block's width and
height both fit the box.  (The per-iteration shrink rule
`size = max(min(size*0.9, size-1), min_size)` is the recursion of
`fitLoop` itself.) -/
theorem fit_text_converges (f : Font) (x0 y0 x1 y1 initSize : ℚ) (text : List ℕ)
    (halign valign : ℕ) (lsp : ℚ) :
    ∃ (res : List FitEntry) (size : ℚ),
      fitTextInBox f x0 y0 x1 y1 initSize text halign valign lsp 6 = some res ∧
      res ≠ [] ∧
      res.map (fun en => (en.line, en.x1 - en.x0)) = wrapText f (x1 - x0) size text ∧
      (∀ en ∈ res, en.size = size) ∧
      (size ≤ 6 ∨
        (linesWidth (wrapText f (x1 - x0) size text) ≤ x1 - x0 ∧
         f.lineHeight * size * lsp * (((wrapText f (x1 - x0) size text).length : ℚ) - 1) +
           f.maxHeight * size ≤ y1 - y0)) := by
  have hfuel : initSize ≤ 6 + ((⌈initSize - 6⌉.toNat : ℕ) : ℚ) :=
    fitTextInBox_fuel initSize 6
  have hsome := fitLoop_isSome f (x1 - x0) (y1 - y0) text lsp 6
    (⌈initSize - 6⌉).toNat initSize hfuel
  obtain ⟨⟨size, lines, width, height⟩, hres⟩ := Option.isSome_iff_exists.mp hsome
  obtain ⟨hlines, hwidth, hheight, hstop⟩ :=
    fitLoop_ok f (x1 - x0) (y1 - y0) text lsp 6 _ initSize size lines width height hres
  subst hlines
  subst hwidth
  subst hheight
  refine ⟨fitLayout x0 x1 (f.maxHeight * size) (f.lineHeight * size * lsp) size halign
    (wrapText f (x1 - x0) size text)
    (if valign = 1 then y1 -
        (f.lineHeight * size * lsp * (((wrapText f (x1 - x0) size text).length : ℚ) - 1) +
          f.maxHeight * size)
      else if valign = 2 then (y0 + y1 -
        (f.lineHeight * size * lsp * (((wrapText f (x1 - x0) size text).length : ℚ) - 1) +
          f.maxHeight * size)) * 0.5
      else y0), size, ?_, ?_, ?_, ?_, ?_⟩
  · rw [fitTextInBox]
    dsimp only []
    rw [hres]
  · exact fitLayout_ne_nil _ _ _ _ _ _ _ _ (wrapText_ne_nil f (x1 - x0) size text)
  · exact fitLayout_map _ _ _ _ _ _ _ _
  · exact fitLayout_size _ _ _ _ _ _ _ _
  · exact hstop

/-! ## Claim C9: the null-font fallback -/

/-- `pure`-then-bind collapses in `Except` (companion to `exceptOkBind`). -/
theorem exceptPureBind {ε α β : Type} (a : α) (f : α → Except ε β) :
    (do let x ← (pure a : Except ε α); f x) = f a := rfl

/-- `set_texture` never touches the bound font. -/
theorem setTexture_font (s : RState) (t : ℕ) (w h : ℚ) :
    (setTexture s t w h).font = s.font := by
  rw [setTexture]
  split
  · rfl
  · rw [flushR]
    split <;> rfl

/-- Under the null font every codepoint resolves to `_nullglyph`
(`valid = false`), so the glyph loop never buffers a quad and returns the
render state unchanged, whatever the text, pen position and colors. -/
theorem glyphLoop_null (aTex : ℕ) (aW aH : ℚ) (y size : ℚ) (cU cL : List ℚ) :
    ∀ (text : List ℕ) (x : ℚ) (prev : ℕ) (s : RState),
      glyphLoop (nullFont aTex aW aH) y size cU cL text x prev s = s
  | [], _, _, _ => rfl
  | cp :: rest, x, prev, s => by
    rw [glyphLoop]
    exact glyphLoop_null aTex aW aH y size cU cL rest _ cp s

/-- Width measurement under the null font: no kerning, every advance is
`_nullglyph`'s `0.5`. -/
theorem widthAux_null (aTex : ℕ) (aW aH : ℚ) :
    ∀ (text : List ℕ) (prev : ℕ) (x : ℚ),
      widthAux (nullFont aTex aW aH) text prev x = x + 0.5 * (text.length : ℚ)
  | [], _, x => by
    rw [widthAux]
    norm_num
  | cp :: rest, prev, x => by
    rw [widthAux, widthAux_null aTex aW aH rest cp]
    show x + ((0 : ℚ)) + (0.5 : ℚ) + 0.5 * (rest.length : ℚ) = _
    simp only [List.length_cons]
    push_cast
    ring

/-- **C9 (confirmed).**  The null font installed when font loading fails has
zero `line_height`, `max_height` and `baseline`; every codepoint resolves to
the invisible `_nullglyph` (`valid = false`); and the text operations are
total on it: `text_line` (any alignment, any colors that parse) raises
nothing and emits no glyph quad — its entire effect is the `set_texture`
call on the shared atlas —, `width` is `0.5·len·size`, `wrap_text` yields
at least one line, and `fit_text_in_box` returns a non-empty layout. -/
theorem null_font_safe (aTex : ℕ) (aW aH : ℚ) (s : RState)
    (x y size W x0 y0 x1 y1 initSize lsp : ℚ) (text : List ℕ)
    (colorU : ColorArg) (colorL : Option ColorArg) (align halign valign : ℕ)
    (hfont : s.font = nullFont aTex aW aH)
    (hU : ∃ u, colorParse colorU = .ok u)
    (hL : ∀ c, colorL = some c → ∃ u, colorParse c = .ok u) :
    (nullFont aTex aW aH).lineHeight = 0 ∧
    (nullFont aTex aW aH).maxHeight = 0 ∧
    (nullFont aTex aW aH).baseline = 0 ∧
    (∀ cp, (((nullFont aTex aW aH).glyphs.lookup cp).getD
      (nullFont aTex aW aH).fallback).valid = false) ∧
    textLineR s x y size text colorU colorL align = .ok (setTexture s aTex aW aH) ∧
    (nullFont aTex aW aH).width text size = 0.5 * (text.length : ℚ) * size ∧
    wrapText (nullFont aTex aW aH) W size text ≠ [] ∧
    (∃ res, fitTextInBox (nullFont aTex aW aH) x0 y0 x1 y1 initSize text
      halign valign lsp 6 = some res ∧ res ≠ []) := by
  have hT : s.font.atlasTex = aTex := by rw [hfont]; rfl
  have hW' : s.font.atlasW = aW := by rw [hfont]; rfl
  have hH' : s.font.atlasH = aH := by rw [hfont]; rfl
  have hsf : (setTexture s aTex aW aH).font = nullFont aTex aW aH := by
    rw [setTexture_font, hfont]
  refine ⟨rfl, rfl, rfl, fun cp => rfl, ?_, ?_, wrapText_ne_nil _ _ _ _, ?_⟩
  · obtain ⟨u, hu⟩ := hU
    unfold textLineR
    rw [hT, hW', hH', hu]
    cases colorL with
    | none =>
      simp only [exceptOkBind, exceptPureBind]
      rw [hsf, glyphLoop_null]
    | some c =>
      obtain ⟨v, hv⟩ := hL c rfl
      simp only [exceptOkBind]
      rw [hv]
      simp only [exceptOkBind]
      rw [hsf, glyphLoop_null]
  · rw [Font.width, widthAux_null]
    ring
  · have hfuel : initSize ≤ 6 + ((⌈initSize - 6⌉.toNat : ℕ) : ℚ) :=
      fitTextInBox_fuel initSize 6
    have hsome := fitLoop_isSome (nullFont aTex aW aH) (x1 - x0) (y1 - y0) text lsp 6
      (⌈initSize - 6⌉).toNat initSize hfuel
    obtain ⟨⟨sz, lines, width, height⟩, hres⟩ := Option.isSome_iff_exists.mp hsome
    obtain ⟨hlines, -, -, -⟩ :=
      fitLoop_ok (nullFont aTex aW aH) (x1 - x0) (y1 - y0) text lsp 6 _
        initSize sz lines width height hres
    refine ⟨fitLayout x0 x1 ((nullFont aTex aW aH).maxHeight * sz)
      ((nullFont aTex aW aH).lineHeight * sz * lsp) sz halign lines
      (if valign = 1 then y1 - height
        else if valign = 2 then (y0 + y1 - height) * 0.5 else y0), ?_, ?_⟩
    · rw [fitTextInBox]
      dsimp only []
      rw [hres]
    · refine fitLayout_ne_nil _ _ _ _ _ _ _ _ ?_
      rw [hlines]
      exact wrapText_ne_nil _ _ _ _

/-- A render state whose font is the null font (texture 3, 256x256 atlas). -/
def witNullState : RState :=
  { data := [], tex := 0, texW := 1, texH := 1, font := nullFont 3 256 256,
    nquads := 0, nbatches := 0 }

/-- **C9, witness**: the null-font guarantees at a concrete state, text
`"Hi"` (`[72, 105]`), centered alignment and color `"fff"`. -/
theorem null_font_safe_witness :
    textLineR witNullState 5 6 12 [72, 105] (.str [102, 102, 102]) none 2 =
      .ok (setTexture witNullState 3 256 256) ∧
    (nullFont 3 256 256).width [72, 105] 12 =
      0.5 * (([72, 105] : List ℕ).length : ℚ) * 12 ∧
    wrapText (nullFont 3 256 256) 100 12 [72, 105] ≠ [] ∧
    (∃ res, fitTextInBox (nullFont 3 256 256) 0 0 100 50 24 [72, 105]
      0 0 1 6 = some res ∧ res ≠ []) := by
  obtain ⟨-, -, -, -, h5, h6, h7, h8⟩ :=
    null_font_safe 3 256 256 witNullState 5 6 12 100 0 0 100 50 24 1 [72, 105]
      (.str [102, 102, 102]) none 2 0 0 rfl
      (colorParse_str_ok _) (fun c hc => by cases hc)
  exact ⟨h5, h6, h7, h8⟩

/-! ## Claim C5: word-wrap idempotence -/

/-- One scan step of `wrap_text` over an alphanumeric character: no line is
emitted, `start`/`end`/`last_checked_line` are carried unchanged. -/
theorem wrapAux_step_alnum (f : Font) (W size : ℚ) (text : List ℕ)
    (i st e : ℕ) (l : List ℕ × ℚ) (hi : i < text.length)
    (h10 : text.get ⟨i, hi⟩ ≠ 10) (hal : pyAlnum (text.get ⟨i, hi⟩) = true) :
    wrapAux f W size text i st e l = wrapAux f W size text (i + 1) st e l := by
  rw [wrapAux, dif_pos hi]
  dsimp only []
  rw [if_neg h10, if_pos hal]

/-- One scan step of `wrap_text` over a newline: the slice `text[start:i-1]`
(renderer.py line 497) is measured and yielded, and the scan restarts after
the newline. -/
theorem wrapAux_step_newline (f : Font) (W size : ℚ) (text : List ℕ)
    (i st e : ℕ) (l : List ℕ × ℚ) (hi : i < text.length)
    (h10 : text.get ⟨i, hi⟩ = 10) :
    wrapAux f W size text i st e l =
      checkWLine f size (pySlice text st ((i : ℤ) - 1)) ::
        wrapAux f W size text (i + 1) (i + 1) (i + 1)
          (checkWLine f size (pySlice text st ((i : ℤ) - 1))) := by
  rw [wrapAux, dif_pos hi]
  dsimp only []
  rw [if_pos h10]

/-- The post-scan epilogue when the remaining text fits `max_width`: exactly
the final line is yielded. -/
theorem wrapAux_epilogue_fits (f : Font) (W size : ℚ) (text : List ℕ)
    (i st e : ℕ) (l : List ℕ × ℚ) (hi : ¬ i < text.length)
    (hfits : (checkWLine f size (pySlice text st (text.length : ℤ))).2 ≤ W) :
    wrapAux f W size text i st e l =
      [checkWLine f size (pySlice text st (text.length : ℤ))] := by
  rw [wrapAux, dif_neg hi]
  dsimp only []
  rw [if_pos (Or.inl hfits)]

/-- Evaluation of `wrap_text(10, 1, "ab\ncd")` under the null font: the
newline step slices `text[0:1] = "a"`, dropping the `'b'` that precedes the
newline. -/
theorem wrapText_ab_cd :
    wrapText (nullFont 0 16 16) 10 1 [97, 98, 10, 99, 100] =
      [([97], (nullFont 0 16 16).width [97] 1),
       ([99, 100], (nullFont 0 16 16).width [99, 100] 1)] := by
  have hcw97 : checkWLine (nullFont 0 16 16) 1 [97] =
      ([97], (nullFont 0 16 16).width [97] 1) := by
    rw [checkWLine]
    rw [show pyStrip [97] = [97] from by decide, mul_one]
  have hcw99100 : checkWLine (nullFont 0 16 16) 1 [99, 100] =
      ([99, 100], (nullFont 0 16 16).width [99, 100] 1) := by
    rw [checkWLine]
    rw [show pyStrip [99, 100] = [99, 100] from by decide, mul_one]
  have hsl1 : pySlice [97, 98, 10, 99, 100] 0 (((2 : ℕ) : ℤ) - 1) = [97] := by
    decide
  have hsl2 : pySlice [97, 98, 10, 99, 100] 3
      ((([97, 98, 10, 99, 100] : List ℕ).length : ℤ)) = [99, 100] := by decide
  have hfits : (checkWLine (nullFont 0 16 16) 1 (pySlice [97, 98, 10, 99, 100] 3
      ((([97, 98, 10, 99, 100] : List ℕ).length : ℤ)))).2 ≤ 10 := by
    rw [hsl2, hcw99100]
    rw [Font.width, widthAux_null]
    norm_num
  rw [wrapText]
  rw [wrapAux_step_alnum (nullFont 0 16 16) 10 1 [97, 98, 10, 99, 100] 0 0 0
    ([], 0) (by decide) (by decide) (by decide)]
  show wrapAux (nullFont 0 16 16) 10 1 [97, 98, 10, 99, 100] 1 0 0 ([], 0) = _
  rw [wrapAux_step_alnum (nullFont 0 16 16) 10 1 [97, 98, 10, 99, 100] 1 0 0
    ([], 0) (by decide) (by decide) (by decide)]
  show wrapAux (nullFont 0 16 16) 10 1 [97, 98, 10, 99, 100] 2 0 0 ([], 0) = _
  rw [wrapAux_step_newline (nullFont 0 16 16) 10 1 [97, 98, 10, 99, 100] 2 0 0
    ([], 0) (by decide) (by decide)]
  rw [hsl1, hcw97]
  show ([97], (nullFont 0 16 16).width [97] 1) ::
    wrapAux (nullFont 0 16 16) 10 1 [97, 98, 10, 99, 100] 3 3 3
      ([97], (nullFont 0 16 16).width [97] 1) = _
  rw [wrapAux_step_alnum (nullFont 0 16 16) 10 1 [97, 98, 10, 99, 100] 3 3 3
    ([97], (nullFont 0 16 16).width [97] 1) (by decide) (by decide) (by decide)]
  show ([97], (nullFont 0 16 16).width [97] 1) ::
    wrapAux (nullFont 0 16 16) 10 1 [97, 98, 10, 99, 100] 4 3 3
      ([97], (nullFont 0 16 16).width [97] 1) = _
  rw [wrapAux_step_alnum (nullFont 0 16 16) 10 1 [97, 98, 10, 99, 100] 4 3 3
    ([97], (nullFont 0 16 16).width [97] 1) (by decide) (by decide) (by decide)]
  show ([97], (nullFont 0 16 16).width [97] 1) ::
    wrapAux (nullFont 0 16 16) 10 1 [97, 98, 10, 99, 100] 5 3 3
      ([97], (nullFont 0 16 16).width [97] 1) = _
  rw [wrapAux_epilogue_fits (nullFont 0 16 16) 10 1 [97, 98, 10, 99, 100] 5 3 3
    ([97], (nullFont 0 16 16).width [97] 1) (by decide) hfits]
  rw [hsl2, hcw99100]

/-- **C5 (code bug).**  `wrap_text` is *not* idempotent on its own output.
The lines `"ab"` (`[97, 98]`) and `"cd"` (`[99, 100]`) are both stripped and
individually fit `max_width = 10` at size 1 under the null font, yet wrapping
their `'\n'`-join does not return them unchanged: the newline branch yields
`check_width(text[start:i-1])` (renderer.py line 497) whose slice stops one
character *before* the newline, so the first output line is `"a"` — the
`'b'` is silently dropped.  (The intended slice is `text[start:i]`.) -/
theorem wrap_text_not_idempotent :
    (pyStrip [97, 98] = [97, 98] ∧ pyStrip [99, 100] = [99, 100] ∧
     (nullFont 0 16 16).width [97, 98] 1 ≤ 10 ∧
     (nullFont 0 16 16).width [99, 100] 1 ≤ 10) ∧
    wrapText (nullFont 0 16 16) 10 1 ([97, 98] ++ [10] ++ [99, 100]) =
      [([97], (nullFont 0 16 16).width [97] 1),
       ([99, 100], (nullFont 0 16 16).width [99, 100] 1)] ∧
    (wrapText (nullFont 0 16 16) 10 1
        ([97, 98] ++ [10] ++ [99, 100])).map Prod.fst ≠
      [[97, 98], [99, 100]] := by
  have happ : ([97, 98] ++ [10] ++ [99, 100] : List ℕ) = [97, 98, 10, 99, 100] := by
    decide
  refine ⟨⟨by decide, by decide, ?_, ?_⟩, ?_, ?_⟩
  · rw [Font.width, widthAux_null]
    norm_num
  · rw [Font.width, widthAux_null]
    norm_num
  · rw [happ, wrapText_ab_cd]
  · rw [happ, wrapText_ab_cd]
    simp only [List.map_cons, List.map_nil]
    decide
